import Mathlib

/-!
Verification development for the apt-rip user-space package manager
(`apt-rip.py`).  The Python source is shallowly embedded: paths are lists of
components, the filesystem is a record of file paths and directory paths,
JSON dictionaries are association lists, and the recursive `install` /
`remove` procedures are fuel-indexed total functions whose distinguished
`fuelOut` error marks fuel exhaustion (never reached when the fuel exceeds
the proved bound).
-/

set_option maxHeartbeats 1000000

/-- Package names (Python `str`). -/
abbrev Name := String

/-- A path relative to the install root, as a list of components. -/
abbrev RelPath := List String

/-- An absolute path, as a list of components. -/
abbrev AbsPath := List String

/-- A loosely typed JSON scalar, as stored for the `explicit` field.  The
installer stores a Python boolean; the `--system` branch of `cmd_install`
stores the string `'True'`. -/
inductive PyVal where
  | pb (b : Bool)
  | ps (s : String)
deriving DecidableEq, Repr

/-- Python truthiness of such a value (`if info['explicit']`). -/
def PyVal.truthy : PyVal → Bool
  | .pb b => b
  | .ps s => s != ""

/-- One value of the persisted `installed_packages.json` mapping. -/
structure PInfo where
  dist : String
  repo : String
  explicit : PyVal
  files : List RelPath
  depends : List Name
deriving DecidableEq, Repr

/-- One value of the parsed package index (`read_package_index`): the
recognized stanza fields; every field may be absent. -/
structure IndexEntry where
  version : Option String := none
  filename : Option String := none
  depends : Option (List String) := none
deriving DecidableEq, Repr

/-- The parsed package index, in feed order. -/
abbrev Index := List (Name × IndexEntry)

/-- The installed-packages mapping, in insertion order. -/
abbrev StateMap := List (Name × PInfo)

/-- Association-list lookup (Python `d[k]` / `k in d`). -/
def alookup {α : Type} : List (String × α) → String → Option α
  | [], _ => none
  | (k, v) :: t, q => if k = q then some v else alookup t q

/-- The keys of an association list, in order. -/
def akeys {α : Type} (m : List (String × α)) : List String := m.map Prod.fst

/-- Python `del d[k]`. -/
def aerase {α : Type} (m : List (String × α)) (q : String) : List (String × α) :=
  m.filter (fun e => e.1 != q)

/-- Python `d.update(new)`: existing keys are overwritten in place, new keys
are appended in `new`'s order. -/
def aupdate {α : Type} (old new : List (String × α)) : List (String × α) :=
  (old.map (fun e =>
    match alookup new e.1 with
    | some v => (e.1, v)
    | none => e)) ++ new.filter (fun e => !((akeys old).contains e.1))

/-- Does list `d` lead list `p`, i.e. is `d` an initial segment of `p`?
Used both for substring search over characters and for path containment. -/
def leadsWith {α : Type} [DecidableEq α] : List α → List α → Bool
  | [], _ => true
  | _ :: _, [] => false
  | a :: q, b :: t => if a = b then leadsWith q t else false

/-- Python `query in name` (substring containment, case-sensitive). -/
def containsSub {α : Type} [DecidableEq α] : List α → List α → Bool
  | q, [] => q.isEmpty
  | q, c :: t => leadsWith q (c :: t) || containsSub q t

/-- `d` is a strict ancestor-path of `p`. -/
def strictlyUnder (d p : List String) : Bool :=
  leadsWith d p && d != p

/-- The modelled filesystem: the set of file paths and directory paths. -/
structure Fs where
  files : List AbsPath
  dirs : List AbsPath
deriving DecidableEq, Repr

/-- Python `os.path.exists` (true for files and directories alike). -/
def Fs.existsPath (fs : Fs) (p : AbsPath) : Bool :=
  fs.files.contains p || fs.dirs.contains p

/-- Can `os.rmdir d` succeed: `d` is a directory and nothing lives under it. -/
def rmdirOk (fs : Fs) (d : AbsPath) : Bool :=
  fs.dirs.contains d &&
  fs.files.all (fun f => !(strictlyUnder d f)) &&
  fs.dirs.all (fun d' => !(strictlyUnder d d'))

/-- Remove directory `d` from the filesystem. -/
def Fs.rmdir (fs : Fs) (d : AbsPath) : Fs :=
  { fs with dirs := fs.dirs.filter (fun d' => d' != d) }

/-- The parent-climbing phase of `os.removedirs`: repeatedly remove the
parent directory while it is empty; the first failure stops the climb.  The
`Nat` argument is fuel (the path length bounds the number of steps). -/
def climbUp : Nat → Fs → AbsPath → Fs
  | 0, fs, _ => fs
  | n + 1, fs, d =>
    if d = [] then fs
    else if rmdirOk fs d then climbUp n (fs.rmdir d) d.dropLast
    else fs

/-- `try: os.removedirs(d) except: pass` as used in `remove`: remove the
leaf directory if possible, then climb; any failure is swallowed. -/
def removedirsTry (fs : Fs) (d : AbsPath) : Fs :=
  if rmdirOk fs d then climbUp d.length (fs.rmdir d) d.dropLast else fs

/-- Errors raised by the embedded code. -/
inductive RErr where
  | blocked (n : Nat)
  | notInstalled (p : Name)
  | osError
  | fuelOut
deriving DecidableEq, Repr

/-- One iteration of the file-deletion loop of `remove`: delete the file if
present (deleting a directory path raises, a missing path only warns), then
attempt to prune its parent directory chain. -/
def deleteAndPrune (rootP : AbsPath) (fs : Fs) (f : RelPath) : Except RErr Fs :=
  let p := rootP ++ f
  if fs.files.contains p then
    .ok (removedirsTry { fs with files := fs.files.erase p } p.dropLast)
  else if fs.dirs.contains p then
    .error .osError
  else
    .ok (removedirsTry fs p.dropLast)

/-- The whole file-deletion loop of `remove`. -/
def delFiles (rootP : AbsPath) : List RelPath → Fs → Except RErr Fs
  | [], fs => .ok fs
  | f :: t, fs =>
    match deleteAndPrune rootP fs f with
    | .ok fs' => delFiles rootP t fs'
    | .error e => .error e

/-- `direct_reverse_dependencies`: every installed package whose `depends`
list contains `package`. -/
def rdepsOf (installed : StateMap) (package : Name) : List Name :=
  (installed.filter (fun e => e.2.depends.contains package)).map Prod.fst

/-- The dependency-cascade loop at the end of `remove`. -/
def remDeps (step : Name → StateMap → Fs → Except RErr (StateMap × Fs)) :
    List Name → StateMap → Fs → Except RErr (StateMap × Fs)
  | [], i, f => .ok (i, f)
  | d :: t, i, f =>
    match step d i f with
    | .ok (i', f') => remDeps step t i' f'
    | .error e => .error e

/-- `remove(config, installed, package, quiet)`: no-op when not installed;
blocked (error when not quiet, silent return when quiet) when reverse
dependents exist; otherwise delete the files with directory pruning, delete
the state entry, and cascade into non-explicit dependencies. -/
def removeM (rootP : AbsPath) : Nat → StateMap → Fs → Name → Bool →
    Except RErr (StateMap × Fs)
  | 0, _, _, _, _ => .error .fuelOut
  | n + 1, installed, fs, package, quiet =>
    match alookup installed package with
    | none => .ok (installed, fs)
    | some info =>
      let rdeps := rdepsOf installed package
      if rdeps.isEmpty then
        match delFiles rootP info.files fs with
        | .error e => .error e
        | .ok fs1 =>
          let installed1 := aerase installed package
          remDeps
            (fun d i f =>
              match alookup i d with
              | some di =>
                if !di.explicit.truthy then removeM rootP n i f d true
                else .ok (i, f)
              | none => .ok (i, f))
            info.depends installed1 fs1
      else
        if quiet then .ok (installed, fs) else .error (.blocked rdeps.length)

/-! ### Association-list lemmas -/

theorem alookup_mem {α : Type} {m : List (String × α)} {q : String} {v : α}
    (h : alookup m q = some v) : (q, v) ∈ m := by
  induction m with
  | nil => simp [alookup] at h
  | cons e t ih =>
    obtain ⟨k, w⟩ := e
    by_cases hk : k = q
    · subst hk
      simp [alookup] at h
      simp [h]
    · simp [alookup, hk] at h
      exact List.mem_cons_of_mem _ (ih h)

theorem alookup_none_iff {α : Type} {m : List (String × α)} {q : String} :
    alookup m q = none ↔ ∀ v : α, (q, v) ∉ m := by
  induction m with
  | nil => simp [alookup]
  | cons e t ih =>
    obtain ⟨k, w⟩ := e
    by_cases hk : k = q
    · subst hk
      constructor
      · intro h
        simp [alookup] at h
      · intro h
        exact absurd (List.mem_cons_self _ _) (h w)
    · simp only [alookup, if_neg hk]
      rw [ih]
      constructor
      · intro h v hv
        rcases List.mem_cons.mp hv with h1 | h2
        · exact absurd ((congrArg Prod.fst h1).symm) hk
        · exact h v h2
      · intro h v hv
        exact h v (List.mem_cons_of_mem _ hv)

theorem mem_aerase {α : Type} {m : List (String × α)} {q : String} {e : String × α} :
    e ∈ aerase m q ↔ e ∈ m ∧ e.1 ≠ q := by
  simp [aerase, List.mem_filter]

theorem aerase_length_lt {α : Type} {m : List (String × α)} {q : String} {v : α}
    (h : alookup m q = some v) : (aerase m q).length < m.length := by
  induction m with
  | nil => simp [alookup] at h
  | cons e t ih =>
    obtain ⟨k, w⟩ := e
    by_cases hk : k = q
    · subst hk
      simp only [aerase, List.filter]
      simp only [bne_self_eq_false]
      calc (List.filter (fun e => e.1 != k) t).length ≤ t.length := List.length_filter_le _ _
        _ < (( k, w) :: t).length := by simp
    · simp only [alookup, hk, if_false, if_neg hk] at h
      have := ih h
      simp only [aerase, List.filter] at *
      have hkq : (k != q) = true := by simp [hk]
      simp [hkq]
      omega

theorem alookup_aerase_ne {α : Type} (m : List (String × α)) (q q' : String) (h : q' ≠ q) :
    alookup (aerase m q) q' = alookup m q' := by
  induction m with
  | nil => simp [aerase, alookup]
  | cons e t ih =>
    obtain ⟨k, w⟩ := e
    by_cases hk : k = q
    · subst hk
      have : (k != k) = false := by simp
      simp only [aerase, List.filter, this]
      rw [show List.filter (fun e => e.1 != k) t = aerase t k from rfl, ih]
      have : k ≠ q' := fun hc => h (hc.symm)
      simp [alookup, this]
    · have hkb : (k != q) = true := by simp [hk]
      simp only [aerase, List.filter, hkb]
      by_cases hk' : k = q'
      · simp [alookup, hk']
      · simp only [alookup, hk', if_neg hk']
        exact ih

theorem alookup_of_sub {α : Type} {m m' : List (String × α)} {q : String}
    (hsub : ∀ e ∈ m', e ∈ m) (h : alookup m q = none) : alookup m' q = none := by
  rw [alookup_none_iff] at h ⊢
  exact fun v hv => h v (hsub _ hv)

/-! ### Filesystem-shrinking facts about removal and pruning -/

/-- The shape of any removal-side filesystem transition: files and
directories only disappear, and a directory that disappears has nothing
left underneath it afterwards. -/
def FsStep (fs fs' : Fs) : Prop :=
  (∀ x ∈ fs'.files, x ∈ fs.files) ∧ (∀ d ∈ fs'.dirs, d ∈ fs.dirs) ∧
  (∀ d ∈ fs.dirs, d ∉ fs'.dirs → ∀ x ∈ fs'.files, strictlyUnder d x = false)

theorem fsStep_refl (fs : Fs) : FsStep fs fs := by
  refine ⟨fun x hx => hx, fun d hd => hd, fun d hd hnd => absurd hd hnd⟩

theorem fsStep_trans {a b c : Fs} (h1 : FsStep a b) (h2 : FsStep b c) : FsStep a c := by
  obtain ⟨f1, d1, u1⟩ := h1
  obtain ⟨f2, d2, u2⟩ := h2
  refine ⟨fun x hx => f1 x (f2 x hx), fun d hd => d1 d (d2 d hd), ?_⟩
  intro d hd hnd x hx
  by_cases hb : d ∈ b.dirs
  · exact u2 d hb hnd x hx
  · exact u1 d hd hb x (f2 x hx)

theorem fsStep_rmdir {fs : Fs} {d : AbsPath} (h : rmdirOk fs d = true) :
    FsStep fs (fs.rmdir d) := by
  simp only [rmdirOk, Bool.and_eq_true, List.all_eq_true] at h
  obtain ⟨⟨_, hfiles⟩, _⟩ := h
  refine ⟨fun x hx => hx, ?_, ?_⟩
  · intro d' hd'
    simp only [Fs.rmdir, List.mem_filter] at hd'
    exact hd'.1
  · intro d0 hd0 hnd0 x hx
    simp only [Fs.rmdir, List.mem_filter] at hnd0
    have hd0d : d0 = d := by
      by_contra hne
      exact hnd0 ⟨hd0, by simp [hne]⟩
    subst hd0d
    have := hfiles x hx
    simpa using this

theorem fsStep_climbUp : ∀ (n : Nat) (fs : Fs) (d : AbsPath), FsStep fs (climbUp n fs d) := by
  intro n
  induction n with
  | zero => intro fs d; exact fsStep_refl fs
  | succ n ih =>
    intro fs d
    rw [climbUp]
    split
    · exact fsStep_refl fs
    · split
      · rename_i hok
        exact fsStep_trans (fsStep_rmdir hok) (ih _ _)
      · exact fsStep_refl fs

theorem fsStep_removedirsTry (fs : Fs) (d : AbsPath) : FsStep fs (removedirsTry fs d) := by
  rw [removedirsTry]
  split
  · rename_i hok
    exact fsStep_trans (fsStep_rmdir hok) (fsStep_climbUp _ _ _)
  · exact fsStep_refl fs

theorem fsStep_eraseFile (fs : Fs) (p : AbsPath) :
    FsStep fs { fs with files := fs.files.erase p } := by
  refine ⟨?_, fun d hd => hd, ?_⟩
  · intro x hx
    exact List.mem_of_mem_erase hx
  · intro d hd hnd
    exact absurd hd hnd

theorem fsStep_deleteAndPrune {rootP : AbsPath} {fs : Fs} {f : RelPath} {fs' : Fs}
    (h : deleteAndPrune rootP fs f = .ok fs') : FsStep fs fs' := by
  rw [deleteAndPrune] at h
  split at h
  · cases h
    exact fsStep_trans (fsStep_eraseFile _ _) (fsStep_removedirsTry _ _)
  · split at h
    · simp at h
    · cases h
      exact fsStep_removedirsTry _ _

theorem fsStep_delFiles {rootP : AbsPath} :
    ∀ {l : List RelPath} {fs fs' : Fs}, delFiles rootP l fs = .ok fs' → FsStep fs fs' := by
  intro l
  induction l with
  | nil =>
    intro fs fs' h
    rw [delFiles] at h
    cases h
    exact fsStep_refl _
  | cons f t ih =>
    intro fs fs' h
    rw [delFiles] at h
    cases hd : deleteAndPrune rootP fs f with
    | ok fs1 =>
      rw [hd] at h
      exact fsStep_trans (fsStep_deleteAndPrune hd) (ih h)
    | error e =>
      rw [hd] at h
      cases h

theorem deleteAndPrune_error {rootP : AbsPath} {fs : Fs} {f : RelPath} {e : RErr}
    (h : deleteAndPrune rootP fs f = .error e) : e = .osError := by
  rw [deleteAndPrune] at h
  split at h
  · simp at h
  · split at h
    · injection h with h'
      exact h'.symm
    · simp at h

theorem delFiles_error {rootP : AbsPath} :
    ∀ {l : List RelPath} {fs : Fs} {e : RErr}, delFiles rootP l fs = .error e → e = .osError := by
  intro l
  induction l with
  | nil =>
    intro fs e h
    rw [delFiles] at h
    cases h
  | cons f t ih =>
    intro fs e h
    rw [delFiles] at h
    cases hd : deleteAndPrune rootP fs f with
    | ok fs1 =>
      rw [hd] at h
      exact ih h
    | error e' =>
      rw [hd] at h
      cases h
      exact deleteAndPrune_error hd

/-! ### Generic invariants of the cascade fold and of `removeM` -/

theorem remDeps_inv (P : StateMap → Fs → Prop)
    (step : Name → StateMap → Fs → Except RErr (StateMap × Fs))
    (hstep : ∀ d i f i' f', P i f → step d i f = .ok (i', f') → P i' f') :
    ∀ (l : List Name) (i : StateMap) (f : Fs) (i' : StateMap) (f' : Fs),
      P i f → remDeps step l i f = .ok (i', f') → P i' f' := by
  intro l
  induction l with
  | nil =>
    intro i f i' f' hp h
    rw [remDeps] at h
    cases h
    exact hp
  | cons d t ih =>
    intro i f i' f' hp h
    rw [remDeps] at h
    cases hs : step d i f with
    | ok v =>
      obtain ⟨a, b⟩ := v
      rw [hs] at h
      exact ih a b i' f' (hstep d i f a b hp hs) h
    | error e =>
      rw [hs] at h
      cases h

theorem remDeps_err (P : StateMap → Fs → Prop)
    (step : Name → StateMap → Fs → Except RErr (StateMap × Fs))
    (hstep : ∀ d i f i' f', P i f → step d i f = .ok (i', f') → P i' f')
    (herr : ∀ d i f e, P i f → step d i f = .error e → e ≠ .fuelOut) :
    ∀ (l : List Name) (i : StateMap) (f : Fs) (e : RErr),
      P i f → remDeps step l i f = .error e → e ≠ .fuelOut := by
  intro l
  induction l with
  | nil =>
    intro i f e hp h
    rw [remDeps] at h
    cases h
  | cons d t ih =>
    intro i f e hp h
    rw [remDeps] at h
    cases hs : step d i f with
    | ok v =>
      obtain ⟨a, b⟩ := v
      rw [hs] at h
      exact ih a b e (hstep d i f a b hp hs) h
    | error e' =>
      rw [hs] at h
      cases h
      exact herr d i f e hp hs

theorem remDeps_ok (P : StateMap → Fs → Prop)
    (step : Name → StateMap → Fs → Except RErr (StateMap × Fs))
    (hstep : ∀ d i f, P i f → ∃ i' f', step d i f = .ok (i', f') ∧ P i' f') :
    ∀ (l : List Name) (i : StateMap) (f : Fs),
      P i f → ∃ i' f', remDeps step l i f = .ok (i', f') ∧ P i' f' := by
  intro l
  induction l with
  | nil =>
    intro i f hp
    exact ⟨i, f, rfl, hp⟩
  | cons d t ih =>
    intro i f hp
    obtain ⟨a, b, hs, hp'⟩ := hstep d i f hp
    obtain ⟨i', f', hr, hp''⟩ := ih a b hp'
    refine ⟨i', f', ?_, hp''⟩
    rw [remDeps, hs]
    exact hr

/-- The structural facts about any successful `remove`: the filesystem only
shrinks (in the `FsStep` sense), the state map loses entries only, and its
length does not grow. -/
theorem removeM_ok_facts (rootP : AbsPath) :
    ∀ (n : Nat) (inst : StateMap) (fs : Fs) (p : Name) (q : Bool)
      (i' : StateMap) (f' : Fs),
      removeM rootP n inst fs p q = .ok (i', f') →
      FsStep fs f' ∧ (∀ e ∈ i', e ∈ inst) ∧ i'.length ≤ inst.length := by
  intro n
  induction n with
  | zero =>
    intro inst fs p q i' f' h
    rw [removeM] at h
    cases h
  | succ n ih =>
    intro inst fs p q i' f' h
    rw [removeM] at h
    cases hl : alookup inst p with
    | none =>
      rw [hl] at h
      cases h
      exact ⟨fsStep_refl _, fun e he => he, le_refl _⟩
    | some info =>
      rw [hl] at h
      simp only at h
      split at h
      · -- no reverse dependents: files deleted, entry erased, cascade
        cases hd : delFiles rootP info.files fs with
        | error e =>
          rw [hd] at h
          cases h
        | ok fs1 =>
          rw [hd] at h
          have hfs1 : FsStep fs fs1 := fsStep_delFiles hd
          have hsub1 : ∀ e ∈ aerase inst p, e ∈ inst := fun e he => (mem_aerase.mp he).1
          have hlen1 : (aerase inst p).length < inst.length := aerase_length_lt hl
          have hP := remDeps_inv
            (fun i f => FsStep fs f ∧ (∀ e ∈ i, e ∈ inst) ∧ i.length ≤ (aerase inst p).length)
            _ ?_ info.depends (aerase inst p) fs1 i' f'
            ⟨hfs1, hsub1, le_refl _⟩ h
          · exact ⟨hP.1, hP.2.1, le_trans hP.2.2 (le_of_lt hlen1)⟩
          · intro d i f a b hp hs
            simp only at hs
            cases hld : alookup i d with
            | none =>
              rw [hld] at hs
              cases hs
              exact hp
            | some di =>
              rw [hld] at hs
              simp only at hs
              by_cases hx : (!di.explicit.truthy) = true
              · rw [if_pos hx] at hs
                have := ih i f d true a b hs
                exact ⟨fsStep_trans hp.1 this.1,
                  fun e he => hp.2.1 e (this.2.1 e he),
                  le_trans this.2.2 hp.2.2⟩
              · rw [if_neg hx] at hs
                cases hs
                exact hp
      · -- blocked
        split at h
        · cases h
          exact ⟨fsStep_refl _, fun e he => he, le_refl _⟩
        · cases h

/-- Bridge between Python `in` on a list (`List.contains`) and membership. -/
theorem containsB_iff {α : Type} [BEq α] [LawfulBEq α] {l : List α} {a : α} :
    l.contains a = true ↔ a ∈ l := by
  simp [List.contains]

/-- No recorded file path of any installed package is a directory on disk
(otherwise `os.remove` on it would raise). -/
def NoFileIsDir (rootP : AbsPath) (inst : StateMap) (fs : Fs) : Prop :=
  ∀ e ∈ inst, ∀ f ∈ e.2.files, (rootP ++ f) ∉ fs.dirs

theorem noFileIsDir_mono {rootP : AbsPath} {i i' : StateMap} {f f' : Fs}
    (hsub : ∀ e ∈ i', e ∈ i) (hd : ∀ d ∈ f'.dirs, d ∈ f.dirs)
    (h : NoFileIsDir rootP i f) : NoFileIsDir rootP i' f' :=
  fun e he g hg hmem => h e (hsub e he) g hg (hd _ hmem)

theorem delFiles_ok {rootP : AbsPath} :
    ∀ {l : List RelPath} {fs : Fs}, (∀ f ∈ l, (rootP ++ f) ∉ fs.dirs) →
      ∃ fs', delFiles rootP l fs = .ok fs' := by
  intro l
  induction l with
  | nil => intro fs _; exact ⟨fs, rfl⟩
  | cons f t ih =>
    intro fs h
    have hf : (rootP ++ f) ∉ fs.dirs := h f (List.mem_cons_self _ _)
    rw [delFiles]
    cases hd : deleteAndPrune rootP fs f with
    | error e =>
      exfalso
      rw [deleteAndPrune] at hd
      split at hd
      · cases hd
      · split at hd
        · rename_i hdir
          exact hf (containsB_iff.mp hdir)
        · cases hd
    | ok fs1 =>
      have hstep := fsStep_deleteAndPrune hd
      exact ih (fun g hg hmem => h g (List.mem_cons_of_mem _ hg) (hstep.2.1 _ hmem))

/-- `remove` never exhausts its fuel once the fuel exceeds the number of
installed packages: the state entry is deleted before the cascade recursion,
so every recursive call sees a strictly smaller state. -/
theorem removeM_no_fuelOut (rootP : AbsPath) :
    ∀ (n : Nat) (inst : StateMap) (fs : Fs) (p : Name) (q : Bool),
      inst.length < n → removeM rootP n inst fs p q ≠ .error .fuelOut := by
  intro n
  induction n with
  | zero => intro inst fs p q hn; exact absurd hn (Nat.not_lt_zero _)
  | succ n ih =>
    intro inst fs p q hn h
    rw [removeM] at h
    cases hl : alookup inst p with
    | none => rw [hl] at h; cases h
    | some info =>
      rw [hl] at h
      simp only at h
      split at h
      · cases hd : delFiles rootP info.files fs with
        | error e =>
          rw [hd] at h
          simp only at h
          injection h with h'
          rw [delFiles_error hd] at h'
          cases h'
        | ok fs1 =>
          rw [hd] at h
          simp only at h
          refine remDeps_err (fun i f => i.length < n) _ ?_ ?_
            info.depends (aerase inst p) fs1 .fuelOut
            (lt_of_lt_of_le (aerase_length_lt hl) (Nat.lt_succ_iff.mp hn)) h rfl
          · intro d i f a b hp hs
            simp only at hs
            cases hld : alookup i d with
            | none => rw [hld] at hs; cases hs; exact hp
            | some di =>
              rw [hld] at hs
              simp only at hs
              by_cases hx : (!di.explicit.truthy) = true
              · rw [if_pos hx] at hs
                exact lt_of_le_of_lt (removeM_ok_facts rootP n i f d true a b hs).2.2 hp
              · rw [if_neg hx] at hs
                cases hs
                exact hp
          · intro d i f e hp hs
            simp only at hs
            cases hld : alookup i d with
            | none => rw [hld] at hs; cases hs
            | some di =>
              rw [hld] at hs
              simp only at hs
              by_cases hx : (!di.explicit.truthy) = true
              · rw [if_pos hx] at hs
                intro he
                rw [he] at hs
                exact ih i f d true hp hs
              · rw [if_neg hx] at hs
                cases hs
      · split at h
        · cases h
        · simp at h

/-- A cascade (`quiet = true`) removal always returns normally when the fuel
is large enough and no recorded file path is a directory. -/
theorem removeM_quiet_ok (rootP : AbsPath) :
    ∀ (n : Nat) (inst : StateMap) (fs : Fs) (p : Name),
      inst.length < n → NoFileIsDir rootP inst fs →
      ∃ i' f', removeM rootP n inst fs p true = .ok (i', f') := by
  intro n
  induction n with
  | zero => intro inst fs p hn; exact absurd hn (Nat.not_lt_zero _)
  | succ n ih =>
    intro inst fs p hn hnofid
    rw [removeM]
    cases hl : alookup inst p with
    | none => exact ⟨inst, fs, rfl⟩
    | some info =>
      simp only
      split
      · have hfl : ∀ f ∈ info.files, (rootP ++ f) ∉ fs.dirs :=
          fun f hf => hnofid (p, info) (alookup_mem hl) f hf
        obtain ⟨fs1, hd⟩ := delFiles_ok hfl
        rw [hd]
        simp only
        have hinit : (aerase inst p).length < n ∧ NoFileIsDir rootP (aerase inst p) fs1 := by
          constructor
          · exact lt_of_lt_of_le (aerase_length_lt hl) (Nat.lt_succ_iff.mp hn)
          · exact noFileIsDir_mono (fun e he => (mem_aerase.mp he).1)
              (fsStep_delFiles hd).2.1 hnofid
        obtain ⟨i', f', hr, _⟩ := remDeps_ok
          (fun i f => i.length < n ∧ NoFileIsDir rootP i f)
          (fun d i f =>
            match alookup i d with
            | some di =>
              if !di.explicit.truthy then removeM rootP n i f d true
              else .ok (i, f)
            | none => .ok (i, f))
          (by
            intro d i f hp
            cases hld : alookup i d with
            | none => exact ⟨i, f, by simp [hld], hp⟩
            | some di =>
              by_cases hx : (!di.explicit.truthy) = true
              · obtain ⟨i', f', hr⟩ := ih i f d hp.1 hp.2
                have hfacts := removeM_ok_facts rootP n i f d true i' f' hr
                exact ⟨i', f', by simp [hld, hx, hr],
                  lt_of_le_of_lt hfacts.2.2 hp.1,
                  noFileIsDir_mono hfacts.2.1 hfacts.1.2.1 hp.2⟩
              · exact ⟨i, f, by simp [hld, hx], hp⟩)
          info.depends (aerase inst p) fs1 hinit
        exact ⟨i', f', hr⟩
      · exact ⟨inst, fs, rfl⟩

theorem alookup_aerase_self {α : Type} (m : List (String × α)) (q : String) :
    alookup (aerase m q) q = none := by
  rw [alookup_none_iff]
  intro v hv
  exact absurd rfl (mem_aerase.mp hv).2

/-- C3: removal safety.  For an installed package `p` that some other
installed package `q` depends on, an explicit removal (`quiet = false`)
fails with the blocked error naming the number of reverse dependents, and a
cascade removal (`quiet = true`) returns silently; in both cases the state
map and the filesystem are returned unchanged. -/
theorem claim_C3_removal_safety (rootP : AbsPath) (n : Nat) (inst : StateMap) (fs : Fs)
    (p q : Name) (pinf qinf : PInfo)
    (hp : alookup inst p = some pinf) (hq : (q, qinf) ∈ inst) (hne : q ≠ p)
    (hdep : p ∈ qinf.depends) :
    removeM rootP (n + 1) inst fs p false = .error (.blocked (rdepsOf inst p).length) ∧
    (rdepsOf inst p).length ≠ 0 ∧
    removeM rootP (n + 1) inst fs p true = .ok (inst, fs) := by
  have hqr : q ∈ rdepsOf inst p := by
    rw [rdepsOf]
    exact List.mem_map.mpr ⟨(q, qinf),
      List.mem_filter.mpr ⟨hq, containsB_iff.mpr hdep⟩, rfl⟩
  have hre : (rdepsOf inst p).isEmpty = false := by
    cases hrd : rdepsOf inst p with
    | nil => rw [hrd] at hqr; cases hqr
    | cons a t => rfl
  refine ⟨?_, ?_, ?_⟩
  · rw [removeM, hp]
    simp only
    simp [hre]
  · intro h0
    rw [List.length_eq_zero] at h0
    rw [h0] at hqr
    cases hqr
  · rw [removeM, hp]
    simp only
    simp [hre]

/-- Concrete state for the C3 witness: package `b` depends on `a`. -/
def instC3 : StateMap :=
  [("a", { dist := "eoan", repo := "main", explicit := .pb false, files := [], depends := [] }),
   ("b", { dist := "eoan", repo := "main", explicit := .pb true, files := [], depends := ["a"] })]

theorem claim_C3_witness :
    removeM [] 1 instC3 { files := [], dirs := [] } "a" false =
      .error (.blocked (rdepsOf instC3 "a").length) ∧
    (rdepsOf instC3 "a").length ≠ 0 ∧
    removeM [] 1 instC3 { files := [], dirs := [] } "a" true =
      .ok (instC3, { files := [], dirs := [] }) :=
  claim_C3_removal_safety [] 0 instC3 { files := [], dirs := [] } "a" "b"
    { dist := "eoan", repo := "main", explicit := .pb false, files := [], depends := [] }
    { dist := "eoan", repo := "main", explicit := .pb true, files := [], depends := ["a"] }
    (by decide) (by decide) (by decide) (by decide)

/-- Concrete removal scenario refuting C8: the install root is `["r"]`; the
sole package owns the persisted state file and a top-level file `f`.  After
both files are deleted the pruning climbs out of the install root and
removes the root directory itself. -/
def fsC8 : Fs :=
  { files := [["r", "etc", "apt-rip", "installed_packages.json"], ["r", "f"]],
    dirs := [["r"], ["r", "etc"], ["r", "etc", "apt-rip"]] }

def instC8 : StateMap :=
  [("pkg", { dist := "eoan", repo := "main", explicit := .pb true,
             files := [["etc", "apt-rip", "installed_packages.json"], ["f"]],
             depends := [] })]

/-- C8 counterexample: a successful `remove` run that deletes the install
root directory `["r"]` itself (it is a directory beforehand and gone
afterwards), contradicting the claim that pruning never removes the install
root or any directory at or above it. -/
theorem claim_C8_counterexample :
    (["r"] : AbsPath) ∈ fsC8.dirs ∧
    removeM ["r"] 1 instC8 fsC8 "pkg" false = .ok ([], { files := [], dirs := [] }) := by
  refine ⟨?_, ?_⟩
  · simp [fsC8]
  · rfl

/-- C8 (amended): pruning during removal is not bounded by the install
root; what holds instead is that files and directories only disappear, and
any directory removed by pruning is empty afterwards (nothing of the
resulting filesystem lies strictly under it); pruning failures never abort
the removal (the only error sources are the blocked check, fuel, and
`os.remove` on a directory path). -/
theorem claim_C8_amended_pruning (rootP : AbsPath) (n : Nat) (inst : StateMap) (fs : Fs)
    (p : Name) (quiet : Bool) (i' : StateMap) (f' : Fs)
    (h : removeM rootP n inst fs p quiet = .ok (i', f')) :
    (∀ x ∈ f'.files, x ∈ fs.files) ∧ (∀ d ∈ f'.dirs, d ∈ fs.dirs) ∧
    (∀ d ∈ fs.dirs, d ∉ f'.dirs → ∀ x ∈ f'.files, strictlyUnder d x = false) :=
  (removeM_ok_facts rootP n inst fs p quiet i' f' h).1

theorem claim_C8_amended_witness :
    (∀ x ∈ (Fs.mk [] []).files, x ∈ fsC8.files) ∧
    (∀ d ∈ (Fs.mk [] []).dirs, d ∈ fsC8.dirs) ∧
    (∀ d ∈ fsC8.dirs, d ∉ (Fs.mk [] []).dirs →
      ∀ x ∈ (Fs.mk [] []).files, strictlyUnder d x = false) :=
  claim_C8_amended_pruning ["r"] 1 instC8 fsC8 "pkg" false [] (Fs.mk [] []) rfl

/-- C4: cascade boundary.  After `remove` deletes an explicitly installed
package `a` whose recorded dependency list is `[b]`, the cascade removes `b`
exactly when `b` is still installed, non-explicit, and has no remaining
reverse dependents: if `b` is non-explicit (and only `a` depended on it)
both `a` and `b` disappear from the state; if `b` is explicit only `a` is
removed and `b`'s entry is unchanged. -/
theorem claim_C4_cascade_boundary (rootP : AbsPath) (n : Nat) (inst : StateMap) (fs : Fs)
    (a b : Name) (ai bi : PInfo)
    (hfuel : inst.length < n)
    (ha : alookup inst a = some ai)
    (haexp : ai.explicit.truthy = true)
    (hdeps : ai.depends = [b])
    (hb : alookup inst b = some bi)
    (hnoA : ∀ e ∈ inst, a ∉ e.2.depends)
    (hBonly : ∀ e ∈ inst, b ∈ e.2.depends → e.1 = a)
    (hnofid : NoFileIsDir rootP inst fs) :
    (bi.explicit.truthy = false →
      ∃ i' f', removeM rootP n inst fs a false = .ok (i', f') ∧
        alookup i' a = none ∧ alookup i' b = none) ∧
    (bi.explicit.truthy = true →
      ∃ f', removeM rootP n inst fs a false = .ok (aerase inst a, f') ∧
        alookup (aerase inst a) b = some bi) := by
  have hmemA : (a, ai) ∈ inst := alookup_mem ha
  have hmemB : (b, bi) ∈ inst := alookup_mem hb
  have hab : a ≠ b := by
    intro hcon
    have h1 := hnoA (a, ai) hmemA
    rw [hdeps] at h1
    exact h1 (List.mem_singleton.mpr hcon)
  have hrdA : rdepsOf inst a = [] := by
    rw [rdepsOf]
    have hfil : inst.filter (fun e => e.2.depends.contains a) = [] := by
      rw [List.filter_eq_nil]
      intro e he hc
      exact hnoA e he (containsB_iff.mp hc)
    rw [hfil]
    rfl
  have hbmem1 : alookup (aerase inst a) b = some bi := by
    rw [alookup_aerase_ne inst a b (Ne.symm hab)]
    exact hb
  have hrdB : rdepsOf (aerase inst a) b = [] := by
    rw [rdepsOf]
    have hfil : (aerase inst a).filter (fun e => e.2.depends.contains b) = [] := by
      rw [List.filter_eq_nil]
      intro e he hc
      obtain ⟨hein, hene⟩ := mem_aerase.mp he
      exact hene (hBonly e hein (containsB_iff.mp hc))
    rw [hfil]
    rfl
  obtain ⟨fs1, hd1⟩ := delFiles_ok (fun f hf => hnofid (a, ai) hmemA f hf)
  have hfs1 := fsStep_delFiles hd1
  have hnofid1 : NoFileIsDir rootP (aerase inst a) fs1 :=
    noFileIsDir_mono (fun e he => (mem_aerase.mp he).1) hfs1.2.1 hnofid
  have hl1lt : (aerase inst a).length < inst.length := aerase_length_lt ha
  have hbin1 : (b, bi) ∈ aerase inst a := mem_aerase.mpr ⟨hmemB, Ne.symm hab⟩
  have hl1pos : 0 < (aerase inst a).length :=
    List.length_pos.mpr (List.ne_nil_of_mem hbin1)
  obtain ⟨m, rfl⟩ : ∃ m, n = m + 1 := ⟨n - 1, by omega⟩
  constructor
  · intro hbexp
    obtain ⟨m', rfl⟩ : ∃ k, m = k + 1 := ⟨m - 1, by omega⟩
    obtain ⟨fs2, hd2⟩ := delFiles_ok (fun f hf => hnofid1 (b, bi) hbin1 f hf)
    have hfs2 := fsStep_delFiles hd2
    have hnofid2 : NoFileIsDir rootP (aerase (aerase inst a) b) fs2 :=
      noFileIsDir_mono (fun e he => (mem_aerase.mp he).1) hfs2.2.1 hnofid1
    have hl2lt : (aerase (aerase inst a) b).length < (aerase inst a).length :=
      aerase_length_lt hbmem1
    obtain ⟨i2, f2, hrem2, hP2⟩ := remDeps_ok
      (fun i f => (∀ e ∈ i, e ∈ aerase (aerase inst a) b) ∧
        i.length < m' ∧ NoFileIsDir rootP i f)
      (fun d i f =>
        match alookup i d with
        | some di =>
          if !di.explicit.truthy then removeM rootP m' i f d true
          else .ok (i, f)
        | none => .ok (i, f))
      (by
        intro d i f hp
        cases hld : alookup i d with
        | none => exact ⟨i, f, by simp [hld], hp⟩
        | some di =>
          by_cases hx : (!di.explicit.truthy) = true
          · obtain ⟨i', f', hr⟩ := removeM_quiet_ok rootP m' i f d hp.2.1 hp.2.2
            have hfacts := removeM_ok_facts rootP m' i f d true i' f' hr
            exact ⟨i', f', by simp [hld, hx, hr],
              fun e he => hp.1 e (hfacts.2.1 e he),
              lt_of_le_of_lt hfacts.2.2 hp.2.1,
              noFileIsDir_mono hfacts.2.1 hfacts.1.2.1 hp.2.2⟩
          · exact ⟨i, f, by simp [hld, hx], hp⟩)
      bi.depends (aerase (aerase inst a) b) fs2
      ⟨fun e he => he, by omega, hnofid2⟩
    have hstepb : removeM rootP (m' + 1) (aerase inst a) fs1 b true = .ok (i2, f2) := by
      rw [removeM, hbmem1]
      simp only
      rw [if_pos (show ((rdepsOf (aerase inst a) b).isEmpty = true) by rw [hrdB]; rfl)]
      rw [hd2]
      simp only
      exact hrem2
    refine ⟨i2, f2, ?_, ?_, ?_⟩
    · rw [removeM, ha]
      simp only
      rw [if_pos (show ((rdepsOf inst a).isEmpty = true) by rw [hrdA]; rfl)]
      rw [hd1]
      simp only
      rw [hdeps, remDeps]
      rw [hbmem1]
      simp only
      rw [if_pos (show ((!bi.explicit.truthy) = true) by rw [hbexp]; rfl)]
      rw [hstepb]
      simp only
      rw [remDeps]
    · exact alookup_of_sub hP2.1
        (alookup_of_sub (fun e he => (mem_aerase.mp he).1) (alookup_aerase_self inst a))
    · exact alookup_of_sub hP2.1 (alookup_aerase_self (aerase inst a) b)
  · intro hbexp
    refine ⟨fs1, ?_, hbmem1⟩
    rw [removeM, ha]
    simp only
    rw [if_pos (show ((rdepsOf inst a).isEmpty = true) by rw [hrdA]; rfl)]
    rw [hd1]
    simp only
    rw [hdeps, remDeps]
    rw [hbmem1]
    simp only
    rw [if_neg (show ¬ ((!bi.explicit.truthy) = true) by rw [hbexp]; simp)]
    rfl

/-- Concrete state for the C4 witness: explicit `a` depends on
non-explicit `b`; nothing else depends on either. -/
def instC4 : StateMap :=
  [("a", { dist := "eoan", repo := "main", explicit := .pb true, files := [], depends := ["b"] }),
   ("b", { dist := "eoan", repo := "main", explicit := .pb false, files := [], depends := [] })]

theorem claim_C4_witness :
    ∃ i' f', removeM [] 3 instC4 { files := [], dirs := [] } "a" false = .ok (i', f') ∧
      alookup i' "a" = none ∧ alookup i' "b" = none :=
  (claim_C4_cascade_boundary [] 3 instC4 { files := [], dirs := [] } "a" "b"
    { dist := "eoan", repo := "main", explicit := .pb true, files := [], depends := ["b"] }
    { dist := "eoan", repo := "main", explicit := .pb false, files := [], depends := [] }
    (by decide) (by decide) (by decide) (by decide) (by decide) (by decide) (by decide)
    (by intro e _ f _ h; exact absurd h (List.not_mem_nil _))).1 (by decide)

/-! ### The installer world, monad, and `cmd_install` -/

/-- A network fetch event. -/
inductive Ev where
  | fetch (url : String)
deriving DecidableEq, Repr

/-- The world threaded through an install command: the real filesystem, the
contents of the two persisted JSON files, the transaction staging state
(`Installer.new_installed` and the tmp `install` directory), the network
fetches performed and the lines printed. -/
structure IWorld where
  fs : Fs
  stateContent : StateMap
  cacheContent : Index
  stagedFiles : List RelPath
  stagedDirs : List RelPath
  newInstalled : StateMap
  evs : List Ev
  out : List String
deriving DecidableEq, Repr

/-- External collaborators: the parsed remote package feed, and the result
of downloading a package archive by its `Filename` and extracting it
(`none` models a download/`ar`/`tar` failure). -/
structure Env where
  feed : Index
  archive : String → Option (List RelPath)

/-- Errors that abort an install or remove command. -/
inductive TErr where
  | keyError (p : Name)
  | extractionError (p : Name)
  | conflictError (f : RelPath) (p : Name)
  | removeErr (e : RErr)
  | fuelOut
deriving DecidableEq, Repr

/-- The state-and-error monad of the embedding: an exception keeps the world
as mutated so far. -/
def M (α : Type) : Type := IWorld → Except TErr α × IWorld

def mPure {α : Type} (a : α) : M α := fun w => (.ok a, w)

def mBind {α β : Type} (x : M α) (g : α → M β) : M β := fun w =>
  match x w with
  | (.ok a, w') => g a w'
  | (.error e, w') => (.error e, w')

def mThrow {α : Type} (e : TErr) : M α := fun w => (.error e, w)

def mGet : M IWorld := fun w => (.ok w, w)

def mMod (g : IWorld → IWorld) : M Unit := fun w => (.ok (), g w)

/-- Fixed relative path of `installed_packages.json` under the install root. -/
def relStatePath : RelPath := ["etc", "apt-rip", "installed_packages.json"]

/-- Relative path of the per-(dist, repo) package-index cache file. -/
def relCachePath (dist repo : String) : RelPath :=
  ["etc", "apt-rip", "package-indices", dist ++ "-" ++ repo ++ ".json"]

def indexUrl (mirror dist repo : String) : String :=
  mirror ++ "/dists/" ++ dist ++ "/" ++ repo ++ "/binary-amd64/Packages.gz"

def pkgUrl (mirror filename : String) : String := mirror ++ "/" ++ filename

/-- All nonempty prefixes of a path. -/
def pfxs {α : Type} : List α → List (List α)
  | [] => []
  | a :: t => [a] :: (pfxs t).map (fun q => a :: q)

/-- The directory chain that `os.makedirs(os.path.dirname dst)` ensures:
every nonempty prefix of the parent of `p`. -/
def dirChain (p : List String) : List (List String) := pfxs p.dropLast

/-- Add the missing directories of `new` to `ds`. -/
def addMissing (ds : List AbsPath) (new : List AbsPath) : List AbsPath :=
  ds ++ new.filter (fun d => !ds.contains d)

/-- `dep.split(' ')[0]`: a dependency specifier reduced to its bare name. -/
def depName (dep : String) : Name := (dep.splitOn " ").headD dep

def alreadyMsg (p : Name) : String := "Package \"" ++ p ++ "\" is already installed"

/-- `read_installed`: parse the state file if it exists, else the empty map. -/
def readInstalledW (rootP : AbsPath) (w : IWorld) : StateMap :=
  if w.fs.files.contains (rootP ++ relStatePath) then w.stateContent else []

/-- `write_installed`: create the file (and its directories) if missing and
replace its content. -/
def writeInstalledW (rootP : AbsPath) (st : StateMap) (w : IWorld) : IWorld :=
  { w with
    stateContent := st,
    fs := { files := if w.fs.files.contains (rootP ++ relStatePath) then w.fs.files
                     else w.fs.files ++ [rootP ++ relStatePath],
            dirs := addMissing w.fs.dirs (dirChain (rootP ++ relStatePath)) } }

/-- `read_package_index`: return the cached parse when the cache file
exists; otherwise fetch the feed, parse it (abstracted into `env.feed`) and
write the cache file back before returning. -/
def readPackageIndexM (env : Env) (mirror dist repo : String) (rootP : AbsPath) : M Index :=
  mBind mGet (fun w =>
    if w.fs.files.contains (rootP ++ relCachePath dist repo) then
      mPure w.cacheContent
    else
      mBind (mMod (fun w => { w with evs := w.evs ++ [.fetch (indexUrl mirror dist repo)] }))
        (fun _ =>
          mBind (mMod (fun w =>
            { w with
              cacheContent := env.feed,
              fs := { files := w.fs.files ++ [rootP ++ relCachePath dist repo],
                      dirs := addMissing w.fs.dirs
                        (dirChain (rootP ++ relCachePath dist repo)) } }))
            (fun _ => mPure env.feed)))

/-- `find_packages`: every index name containing `query` as a substring. -/
def find_packages (index : Index) (query : String) : List Name :=
  (index.map Prod.fst).filter (fun name => containsSub query.data name.data)

/-- Outcome of resolving one requested name against the index. -/
inductive ResOut where
  | name (n : Name)
  | ambiguous (count : Nat)
  | notFound
deriving DecidableEq, Repr

/-- The per-request resolution logic of `cmd_install`: exact match wins;
otherwise more than one substring candidate is ambiguous, none is
not-found, and a unique candidate is used. -/
def resolveOne (index : Index) (package : String) : ResOut :=
  let results := find_packages index package
  if results.contains package then .name package
  else if results.length > 1 then .ambiguous results.length
  else
    match results with
    | [] => .notFound
    | r :: _ => .name r

def ambiguousMsg (p : String) (k : Nat) : String :=
  "Error: Abiguous package name \"" ++ p ++ "\" (found " ++ toString k ++ " canidates)"

def notFoundMsg (p : String) : String :=
  "Error: Failed to find a package matching \"" ++ p ++ "\""

/-- The resolution loop of `cmd_install`: resolve each requested name in
order; the first failure stops the whole command with its message. -/
def resolveAll (index : Index) : List String → Except String (List Name)
  | [] => .ok []
  | q :: t =>
    match resolveOne index q with
    | .name n =>
      match resolveAll index t with
      | .ok ns => .ok (n :: ns)
      | .error m => .error m
    | .ambiguous k => .error (ambiguousMsg q k)
    | .notFound => .error (notFoundMsg q)

/-- One file of the extraction walk of `Installer.install`: conflict if the
relative path already exists under the install root or under the validated
staging directory, else move it into staging (creating directories). -/
def stageFile (rootP : AbsPath) (package : Name) (rel : RelPath) : M Unit :=
  mBind mGet (fun w =>
    if w.fs.existsPath (rootP ++ rel) then
      mThrow (.conflictError rel package)
    else if w.stagedFiles.contains rel || w.stagedDirs.contains rel then
      mThrow (.conflictError rel package)
    else
      mMod (fun w => { w with
        stagedFiles := w.stagedFiles ++ [rel],
        stagedDirs := addMissing w.stagedDirs (dirChain rel) }))

def stageFiles (rootP : AbsPath) (package : Name) : List RelPath → M Unit
  | [] => mPure ()
  | rel :: t => mBind (stageFile rootP package rel) (fun _ => stageFiles rootP package t)

/-- The dependency loop at the end of `Installer.install`. -/
def instDeps (step : Name → M Unit) : List String → M Unit
  | [] => mPure ()
  | dep :: t => mBind (step (depName dep)) (fun _ => instDeps step t)

/-- `Installer.install(package, explicit)`: no-op (with a message when
explicit) when already installed or already committed this transaction;
otherwise download the archive, extract it, walk and stage every file with
the conflict check, record the `InstalledPackage`, and recurse into the
version-stripped dependencies. -/
def installM (env : Env) (mirror : String) (index : Index) (installed : StateMap)
    (dist repo : String) (rootP : AbsPath) :
    Nat → Name → Bool → M Unit
  | 0, _, _ => mThrow .fuelOut
  | n + 1, package, explicit =>
    mBind mGet (fun w =>
      if (alookup installed package).isSome || (alookup w.newInstalled package).isSome then
        if explicit then mMod (fun w => { w with out := w.out ++ [alreadyMsg package] })
        else mPure ()
      else
        match alookup index package with
        | none => mThrow (.keyError package)
        | some entry =>
          match entry.filename with
          | none => mThrow (.keyError package)
          | some fn =>
            mBind (mMod (fun w => { w with evs := w.evs ++ [.fetch (pkgUrl mirror fn)] }))
              (fun _ =>
                match env.archive fn with
                | none => mThrow (.extractionError package)
                | some contents =>
                  mBind (stageFiles rootP package contents) (fun _ =>
                    let dependencies := entry.depends.getD []
                    mBind (mMod (fun w => { w with
                      newInstalled := w.newInstalled ++
                        [(package,
                          { dist := dist, repo := repo, explicit := .pb explicit,
                            files := contents,
                            depends := dependencies.map depName })] }))
                      (fun _ =>
                        instDeps
                          (fun d => installM env mirror index installed dist repo rootP n d false)
                          dependencies))))

/-- The loop over the resolved top-level requests. -/
def installList (step : Name → M Unit) : List Name → M Unit
  | [] => mPure ()
  | p :: t => mBind (step p) (fun _ => installList step t)

/-- The commit walk of `cmd_install`: move every staged file into the
install root at its relative path, creating directories. -/
def moveToRoot (rootP : AbsPath) : List RelPath → Fs → Fs
  | [], fs => fs
  | rel :: t, fs =>
    moveToRoot rootP t
      { files := fs.files ++ [rootP ++ rel],
        dirs := addMissing fs.dirs (dirChain (rootP ++ rel)) }

/-- Transaction finalization: commit the staged tree, merge the
newly-committed entries into the snapshot read at command start, persist. -/
def commitTx (rootP : AbsPath) (installed : StateMap) : M Unit :=
  mBind (mMod (fun w =>
    { w with fs := moveToRoot rootP w.stagedFiles w.fs, stagedFiles := [] }))
    (fun _ => mBind mGet (fun w =>
      mMod (writeInstalledW rootP (aupdate installed w.newInstalled))))

/-- The `InstalledPackage` recorded by the `--system` branch.  Note the
string `'True'`, not a boolean, as in the source. -/
def sysInfo : PInfo :=
  { dist := "special", repo := "system", explicit := .ps "True",
    files := [], depends := [] }

/-- The `--system` loop of `cmd_install`. -/
def sysLoopM : List Name → StateMap → M StateMap
  | [], inst => mPure inst
  | p :: t, inst =>
    if (alookup inst p).isSome then
      mBind (mMod (fun w => { w with out := w.out ++ [alreadyMsg p] }))
        (fun _ => sysLoopM t inst)
    else sysLoopM t (inst ++ [(p, sysInfo)])

/-- `cmd_install`: load the index (possibly fetching and caching it), read
the installed state, handle `--system`, resolve every requested name, and
only then run the transaction (fresh staging, recursive installs, commit). -/
def cmdInstallM (env : Env) (mirror : String) (rootP : AbsPath)
    (packages : List String) (dist repo : String) (system : Bool) (fuel : Nat) : M Unit :=
  mBind (readPackageIndexM env mirror dist repo rootP) (fun index =>
    mBind mGet (fun w0 =>
      let installed := readInstalledW rootP w0
      if system then
        mBind (sysLoopM packages installed)
          (fun inst' => mMod (writeInstalledW rootP inst'))
      else
        match resolveAll index packages with
        | .error msg => mMod (fun w => { w with out := w.out ++ [msg] })
        | .ok names =>
          mBind (mMod (fun w =>
            { w with stagedFiles := [], stagedDirs := [], newInstalled := [] }))
            (fun _ =>
              mBind (installList
                (fun p => installM env mirror index installed dist repo rootP fuel p true)
                names)
                (fun _ => commitTx rootP installed))))

/-- The loop of `cmd_remove`: a request not in the state raises; otherwise
remove it (not quiet).  Modelling note: an `osError` escaping mid-loop
discards the intermediate filesystem, which no claim depends on (the
blocked error of C3 is raised before any mutation). -/
def removeLoop (rootP : AbsPath) (fuel : Nat) :
    List Name → StateMap → Fs → Except RErr (StateMap × Fs)
  | [], inst, fs => .ok (inst, fs)
  | p :: t, inst, fs =>
    if (alookup inst p).isSome then
      match removeM rootP fuel inst fs p false with
      | .ok (i', f') => removeLoop rootP fuel t i' f'
      | .error e => .error e
    else .error (.notInstalled p)

/-- `cmd_remove`: read the state, remove each requested package, persist. -/
def cmdRemoveM (rootP : AbsPath) (packages : List Name) (fuel : Nat) : M Unit :=
  mBind mGet (fun w =>
    match removeLoop rootP fuel packages (readInstalledW rootP w) w.fs with
    | .ok (inst', fs') =>
      mBind (mMod (fun w => { w with fs := fs' }))
        (fun _ => mMod (writeInstalledW rootP inst'))
    | .error e => mThrow (.removeErr e))

/-! ### Frame facts: the staging phase never touches the root or the state -/

/-- A computation that leaves the real filesystem and the persisted state
content untouched, whether it succeeds or raises. -/
def KeepsRS {α : Type} (x : M α) : Prop :=
  ∀ w, ((x w).2).fs = w.fs ∧ ((x w).2).stateContent = w.stateContent

theorem keepsRS_mPure {α : Type} (a : α) : KeepsRS (mPure a) :=
  fun _ => ⟨rfl, rfl⟩

theorem keepsRS_mThrow {α : Type} (e : TErr) : KeepsRS (mThrow (α := α) e) :=
  fun _ => ⟨rfl, rfl⟩

theorem keepsRS_mGet : KeepsRS mGet :=
  fun _ => ⟨rfl, rfl⟩

theorem keepsRS_mMod {g : IWorld → IWorld}
    (hg : ∀ w, (g w).fs = w.fs ∧ (g w).stateContent = w.stateContent) :
    KeepsRS (mMod g) :=
  fun w => hg w

theorem keepsRS_mBind {α β : Type} {x : M α} {g : α → M β}
    (hx : KeepsRS x) (hg : ∀ a, KeepsRS (g a)) : KeepsRS (mBind x g) := by
  intro w
  unfold mBind
  cases hxw : x w with
  | mk r w1 =>
    have h1 := hx w
    rw [hxw] at h1
    cases r with
    | ok a =>
      have h2 := hg a w1
      exact ⟨h2.1.trans h1.1, h2.2.trans h1.2⟩
    | error e => exact h1

theorem keepsRS_stageFile (rootP : AbsPath) (package : Name) (rel : RelPath) :
    KeepsRS (stageFile rootP package rel) := by
  apply keepsRS_mBind keepsRS_mGet
  intro a
  split
  · exact keepsRS_mThrow _
  · split
    · exact keepsRS_mThrow _
    · exact keepsRS_mMod (fun _ => ⟨rfl, rfl⟩)

theorem keepsRS_stageFiles (rootP : AbsPath) (package : Name) :
    ∀ l : List RelPath, KeepsRS (stageFiles rootP package l) := by
  intro l
  induction l with
  | nil => exact keepsRS_mPure ()
  | cons rel t ih =>
    exact keepsRS_mBind (keepsRS_stageFile rootP package rel) (fun _ => ih)

theorem keepsRS_instDeps {step : Name → M Unit} (hstep : ∀ d, KeepsRS (step d)) :
    ∀ l : List String, KeepsRS (instDeps step l) := by
  intro l
  induction l with
  | nil => exact keepsRS_mPure ()
  | cons dep t ih =>
    exact keepsRS_mBind (hstep (depName dep)) (fun _ => ih)

theorem keepsRS_installM (env : Env) (mirror : String) (index : Index)
    (installed : StateMap) (dist repo : String) (rootP : AbsPath) :
    ∀ (n : Nat) (package : Name) (explicit : Bool),
      KeepsRS (installM env mirror index installed dist repo rootP n package explicit) := by
  intro n
  induction n with
  | zero => intro package explicit; exact keepsRS_mThrow _
  | succ n ih =>
    intro package explicit
    rw [installM]
    apply keepsRS_mBind keepsRS_mGet
    intro a
    split
    · split
      · exact keepsRS_mMod (fun _ => ⟨rfl, rfl⟩)
      · exact keepsRS_mPure ()
    · split
      · exact keepsRS_mThrow _
      · split
        · exact keepsRS_mThrow _
        · refine keepsRS_mBind (keepsRS_mMod (fun _ => ⟨rfl, rfl⟩)) ?_
          intro b
          split
          · exact keepsRS_mThrow _
          · refine keepsRS_mBind (keepsRS_stageFiles _ _ _) ?_
            intro c
            refine keepsRS_mBind (keepsRS_mMod (fun _ => ⟨rfl, rfl⟩)) ?_
            intro d
            exact keepsRS_instDeps (fun d' => ih d' false) _

theorem keepsRS_installList {step : Name → M Unit} (hstep : ∀ p, KeepsRS (step p)) :
    ∀ l : List Name, KeepsRS (installList step l) := by
  intro l
  induction l with
  | nil => exact keepsRS_mPure ()
  | cons p t ih =>
    exact keepsRS_mBind (hstep p) (fun _ => ih)

/-- C9: install idempotence.  When `package` is already in the installed
snapshot or in the transaction's newly-committed set, `Installer.install`
returns immediately: the world is unchanged except that the explicit call
appends the already-installed message; in particular no fetch happens, no
file is staged or written, and no state entry is added. -/
theorem claim_C9_idempotence (env : Env) (mirror : String) (index : Index)
    (installed : StateMap) (dist repo : String) (rootP : AbsPath)
    (n : Nat) (package : Name) (w : IWorld)
    (h : (alookup installed package).isSome = true ∨
         (alookup w.newInstalled package).isSome = true) :
    installM env mirror index installed dist repo rootP (n + 1) package false w =
      (.ok (), w) ∧
    installM env mirror index installed dist repo rootP (n + 1) package true w =
      (.ok (), { w with out := w.out ++ [alreadyMsg package] }) := by
  have hcond : ((alookup installed package).isSome ||
      (alookup w.newInstalled package).isSome) = true := by
    rcases h with h | h <;> simp [h]
  constructor
  · rw [installM]
    simp only [mBind, mGet]
    rw [if_pos hcond]
    rfl
  · rw [installM]
    simp only [mBind, mGet]
    rw [if_pos hcond]
    rfl

/-- An empty world for witnesses. -/
def wEmpty : IWorld :=
  { fs := { files := [], dirs := [] }, stateContent := [], cacheContent := [],
    stagedFiles := [], stagedDirs := [], newInstalled := [], evs := [], out := [] }

/-- A trivial environment for witnesses. -/
def envTrivial : Env := { feed := [], archive := fun _ => none }

def instC9 : StateMap :=
  [("p", { dist := "eoan", repo := "main", explicit := .pb true, files := [], depends := [] })]

theorem claim_C9_witness :
    installM envTrivial "m" [] instC9 "eoan" "main" [] 1 "p" false wEmpty =
      (.ok (), wEmpty) ∧
    installM envTrivial "m" [] instC9 "eoan" "main" [] 1 "p" true wEmpty =
      (.ok (), { wEmpty with out := wEmpty.out ++ [alreadyMsg "p"] }) :=
  claim_C9_idempotence envTrivial "m" [] instC9 "eoan" "main" [] 0 "p" wEmpty
    (Or.inl (by decide))

/-! ### Name resolution -/

theorem leadsWith_refl {α : Type} [DecidableEq α] : ∀ l : List α, leadsWith l l = true := by
  intro l
  induction l with
  | nil => rfl
  | cons a t ih => simp [leadsWith, ih]

theorem containsSub_refl {α : Type} [DecidableEq α] : ∀ l : List α, containsSub l l = true := by
  intro l
  cases l with
  | nil => rfl
  | cons a t => simp [containsSub, leadsWith_refl]

theorem mem_find_packages {index : Index} {q : String} {r : Name} :
    r ∈ find_packages index q ↔ r ∈ index.map Prod.fst ∧ containsSub q.data r.data = true := by
  simp [find_packages, List.mem_filter]

/-- C5: name resolution.  Exact match wins outright (even when other names
contain the query as a substring); with no exact match, a unique substring
candidate is used, zero candidates resolve to not-found, more than one to
ambiguous (with the candidate count); and any failing request makes the
whole resolution loop — and hence the install command — fail. -/
theorem claim_C5_name_resolution (index : Index) (q : String) :
    (q ∈ index.map Prod.fst → resolveOne index q = .name q) ∧
    (q ∉ index.map Prod.fst → ∀ r, find_packages index q = [r] →
      resolveOne index q = .name r) ∧
    (find_packages index q = [] → resolveOne index q = .notFound) ∧
    (q ∉ index.map Prod.fst → 1 < (find_packages index q).length →
      resolveOne index q = .ambiguous (find_packages index q).length) ∧
    (∀ qs : List String,
      (∃ x ∈ qs, resolveOne index x = .notFound ∨
        ∃ k, resolveOne index x = .ambiguous k) →
      ∃ m, resolveAll index qs = .error m) := by
  refine ⟨?_, ?_, ?_, ?_, ?_⟩
  · intro hq
    have hmem : q ∈ find_packages index q :=
      mem_find_packages.mpr ⟨hq, containsSub_refl q.data⟩
    rw [resolveOne]
    rw [if_pos (containsB_iff.mpr hmem)]
  · intro hq r hr
    have hqf : (find_packages index q).contains q = false := by
      rw [Bool.eq_false_iff]
      intro hc
      exact hq (mem_find_packages.mp (containsB_iff.mp hc)).1
    rw [resolveOne]
    rw [if_neg (by rw [hqf]; simp)]
    rw [hr]
    rfl
  · intro hr
    have hqf : (find_packages index q).contains q = false := by
      rw [hr]; rfl
    rw [resolveOne]
    rw [if_neg (by rw [hqf]; simp)]
    rw [hr]
    rfl
  · intro hq hlen
    have hqf : (find_packages index q).contains q = false := by
      rw [Bool.eq_false_iff]
      intro hc
      exact hq (mem_find_packages.mp (containsB_iff.mp hc)).1
    rw [resolveOne]
    rw [if_neg (by rw [hqf]; simp)]
    rw [if_pos (by exact Nat.lt_iff_add_one_le.mp hlen)]
  · intro qs
    induction qs with
    | nil => intro h; obtain ⟨x, hx, _⟩ := h; cases hx
    | cons a t ih =>
      intro h
      rw [resolveAll]
      cases hra : resolveOne index a with
      | name nm =>
        obtain ⟨x, hx, hxbad⟩ := h
        rcases List.mem_cons.mp hx with hxa | hxt
        · subst hxa
          rw [hra] at hxbad
          rcases hxbad with hbad | ⟨k, hbad⟩ <;> cases hbad
        · obtain ⟨m, hm⟩ := ih ⟨x, hxt, hxbad⟩
          rw [hm]
          exact ⟨m, rfl⟩
      | ambiguous k => exact ⟨ambiguousMsg a k, rfl⟩
      | notFound => exact ⟨notFoundMsg a, rfl⟩

/-- Concrete index for the C5 witness: `"pkg"` matches exactly although
`"pkg-extra"` contains it; `"extra"` has the unique candidate
`"pkg-extra"`; `"lib"` is ambiguous; `"zz"` matches nothing. -/
def idxC5 : Index :=
  [("pkg", {}), ("pkg-extra", {}), ("lib1", {}), ("lib2", {})]

theorem claim_C5_witness :
    resolveOne idxC5 "pkg" = .name "pkg" ∧
    resolveOne idxC5 "extra" = .name "pkg-extra" ∧
    resolveOne idxC5 "zz" = .notFound ∧
    resolveOne idxC5 "lib" = .ambiguous ((find_packages idxC5 "lib").length) ∧
    ∃ m, resolveAll idxC5 ["pkg", "zz"] = .error m :=
  ⟨(claim_C5_name_resolution idxC5 "pkg").1 (by decide),
   (claim_C5_name_resolution idxC5 "extra").2.1 (by decide) "pkg-extra" (by decide),
   (claim_C5_name_resolution idxC5 "zz").2.2.1 (by decide),
   (claim_C5_name_resolution idxC5 "lib").2.2.2.1 (by decide) (by decide),
   (claim_C5_name_resolution idxC5 "pkg").2.2.2.2 ["pkg", "zz"]
     ⟨"zz", by decide, Or.inl (by decide)⟩⟩

/-- World for the C7 run: the index cache file exists (so no fetch), the
state file does not (empty state). -/
def wC7 : IWorld :=
  { fs := { files := [["r"] ++ relCachePath "eoan" "main"], dirs := [] },
    stateContent := [], cacheContent := [],
    stagedFiles := [], stagedDirs := [], newInstalled := [], evs := [], out := [] }

/-- C7: the `--system` branch records an entry with no files, no
dependencies, provenance `("special", "system")` and no fetch — but its
`explicit` field is the JSON string `"True"`, not the boolean `true` (a
slip in the source: every other code path stores a real boolean).  The
entry is still truthy, and a second `--system` request for the same name
prints the already-installed message and leaves the entry unchanged. -/
theorem claim_C7_system_mark :
    ∃ w', cmdInstallM envTrivial "m" ["r"] ["p"] "eoan" "main" true 1 wC7 = (.ok (), w') ∧
      alookup w'.stateContent "p" = some sysInfo ∧
      sysInfo.dist = "special" ∧ sysInfo.repo = "system" ∧
      sysInfo.files = [] ∧ sysInfo.depends = [] ∧
      sysInfo.explicit = .ps "True" ∧ ¬ sysInfo.explicit = .pb true ∧
      sysInfo.explicit.truthy = true ∧
      w'.evs = [] ∧
      (∃ w2, cmdInstallM envTrivial "m" ["r"] ["p"] "eoan" "main" true 1
          { w' with out := [] } = (.ok (), w2) ∧
        w2.stateContent = w'.stateContent ∧ w2.out = [alreadyMsg "p"]) := by
  refine ⟨_, rfl, by decide, by decide, by decide, by decide, by decide,
    by decide, by decide, by decide, by decide, _, rfl, by decide, by decide⟩

/-- Environment for the C6 counterexample. -/
def envC6 : Env := { feed := [("pkg", {})], archive := fun _ => none }

/-- C6 counterexample: with a cold index cache, an install command whose
name resolution fails has nevertheless contacted the network (the index
feed fetch) and written a file (the index cache, under the install root)
before stopping — contradicting the claim that such a command performs no
network or filesystem activity at all. -/
theorem claim_C6_counterexample :
    ∃ w', cmdInstallM envC6 "m" ["r"] ["zz"] "eoan" "main" false 1 wEmpty = (.ok (), w') ∧
      resolveAll envC6.feed ["zz"] = .error (notFoundMsg "zz") ∧
      w'.evs = [.fetch (indexUrl "m" "eoan" "main")] ∧
      (["r"] ++ relCachePath "eoan" "main") ∈ w'.fs.files ∧
      ¬ (["r"] ++ relCachePath "eoan" "main") ∈ wEmpty.fs.files := by
  refine ⟨_, rfl, rfl, by decide, by decide, by decide⟩

/-- The index an install command actually resolves against: the cached
parse when the cache file exists, the freshly fetched feed otherwise. -/
def effIndex (env : Env) (dist repo : String) (rootP : AbsPath) (w : IWorld) : Index :=
  if w.fs.files.contains (rootP ++ relCachePath dist repo) then w.cacheContent else env.feed

/-- C6 (amended): when name resolution fails, the install command returns
normally having printed the error; the persisted state and the staging
fields are untouched and no package archive is fetched — the only possible
prior activity is the index load itself, which on a cold cache fetches the
feed once and writes the index cache file. -/
theorem claim_C6_amended_abort (env : Env) (mirror : String) (rootP : AbsPath)
    (packages : List String) (dist repo : String) (fuel : Nat) (w : IWorld) (m : String)
    (hres : resolveAll (effIndex env dist repo rootP w) packages = .error m) :
    ∃ w', cmdInstallM env mirror rootP packages dist repo false fuel w = (.ok (), w') ∧
      w'.stateContent = w.stateContent ∧
      w'.stagedFiles = w.stagedFiles ∧ w'.newInstalled = w.newInstalled ∧
      w'.out = w.out ++ [m] ∧
      (if w.fs.files.contains (rootP ++ relCachePath dist repo) = true then
        w'.fs = w.fs ∧ w'.evs = w.evs
       else
        w'.fs = { files := w.fs.files ++ [rootP ++ relCachePath dist repo],
                  dirs := addMissing w.fs.dirs (dirChain (rootP ++ relCachePath dist repo)) } ∧
        w'.evs = w.evs ++ [.fetch (indexUrl mirror dist repo)]) := by
  by_cases hc : w.fs.files.contains (rootP ++ relCachePath dist repo) = true
  · rw [effIndex, if_pos hc] at hres
    have hrun : cmdInstallM env mirror rootP packages dist repo false fuel w =
        (.ok (), { w with out := w.out ++ [m] }) := by
      unfold cmdInstallM readPackageIndexM
      simp only [mBind, mGet, mPure, mMod]
      rw [if_pos hc]
      simp only [mPure]
      rw [hres]
      rfl
    refine ⟨_, hrun, rfl, rfl, rfl, rfl, ?_⟩
    rw [if_pos hc]
    exact ⟨rfl, rfl⟩
  · rw [effIndex, if_neg hc] at hres
    have hrun : cmdInstallM env mirror rootP packages dist repo false fuel w =
        (.ok (), { w with
          cacheContent := env.feed,
          fs := { files := w.fs.files ++ [rootP ++ relCachePath dist repo],
                  dirs := addMissing w.fs.dirs (dirChain (rootP ++ relCachePath dist repo)) },
          evs := w.evs ++ [.fetch (indexUrl mirror dist repo)],
          out := w.out ++ [m] }) := by
      unfold cmdInstallM readPackageIndexM
      simp only [mBind, mGet, mPure, mMod]
      rw [if_neg hc]
      simp only [mBind, mMod, mPure]
      rw [hres]
      rfl
    refine ⟨_, hrun, rfl, rfl, rfl, rfl, ?_⟩
    rw [if_neg hc]
    exact ⟨rfl, rfl⟩

/-- Witness world and environment for the amended C6 theorem (cold cache,
unresolvable request). -/
theorem claim_C6_amended_witness :
    ∃ w', cmdInstallM envC6 "m" ["r"] ["zz"] "eoan" "main" false 1 wEmpty = (.ok (), w') ∧
      w'.stateContent = wEmpty.stateContent ∧
      w'.stagedFiles = wEmpty.stagedFiles ∧ w'.newInstalled = wEmpty.newInstalled ∧
      w'.out = wEmpty.out ++ [notFoundMsg "zz"] ∧
      (if wEmpty.fs.files.contains (["r"] ++ relCachePath "eoan" "main") = true then
        w'.fs = wEmpty.fs ∧ w'.evs = wEmpty.evs
       else
        w'.fs = { files := wEmpty.fs.files ++ [["r"] ++ relCachePath "eoan" "main"],
                  dirs := addMissing wEmpty.fs.dirs
                    (dirChain (["r"] ++ relCachePath "eoan" "main")) } ∧
        w'.evs = wEmpty.evs ++ [.fetch (indexUrl "m" "eoan" "main")]) :=
  claim_C6_amended_abort envC6 "m" ["r"] ["zz"] "eoan" "main" 1 wEmpty
    (notFoundMsg "zz") rfl

/-- The world after `read_package_index`: unchanged on a cache hit; on a
miss the feed is fetched and the cache file written. -/
def idxLoadWorld (env : Env) (mirror dist repo : String) (rootP : AbsPath) (w : IWorld) : IWorld :=
  if w.fs.files.contains (rootP ++ relCachePath dist repo) then w
  else
    { w with
      cacheContent := env.feed,
      fs := { files := w.fs.files ++ [rootP ++ relCachePath dist repo],
              dirs := addMissing w.fs.dirs (dirChain (rootP ++ relCachePath dist repo)) },
      evs := w.evs ++ [.fetch (indexUrl mirror dist repo)] }

theorem readPackageIndexM_run (env : Env) (mirror dist repo : String)
    (rootP : AbsPath) (w : IWorld) :
    readPackageIndexM env mirror dist repo rootP w =
      (.ok (effIndex env dist repo rootP w), idxLoadWorld env mirror dist repo rootP w) := by
  unfold readPackageIndexM effIndex idxLoadWorld
  by_cases hc : w.fs.files.contains (rootP ++ relCachePath dist repo) = true
  · simp only [mBind, mGet, mPure, mMod]
    rw [if_pos hc, if_pos hc, if_pos hc]
    rfl
  · simp only [mBind, mGet, mPure, mMod]
    rw [if_neg hc, if_neg hc, if_neg hc]
    rfl

theorem commitTx_ok (rootP : AbsPath) (installed : StateMap) (w : IWorld) :
    ∃ w', commitTx rootP installed w = (.ok (), w') :=
  ⟨_, rfl⟩

/-- One-step evaluation of `cmd_install` up to the branch on `--system` and
the resolution outcome. -/
theorem cmdInstallM_run (env : Env) (mirror : String) (rootP : AbsPath)
    (packages : List String) (dist repo : String) (system : Bool) (fuel : Nat) (w : IWorld) :
    cmdInstallM env mirror rootP packages dist repo system fuel w =
      (if system then
        (mBind (sysLoopM packages (readInstalledW rootP (idxLoadWorld env mirror dist repo rootP w)))
          (fun i => mMod (writeInstalledW rootP i)))
          (idxLoadWorld env mirror dist repo rootP w)
      else
        match resolveAll (effIndex env dist repo rootP w) packages with
        | .error msg =>
          (.ok (), { idxLoadWorld env mirror dist repo rootP w with
            out := (idxLoadWorld env mirror dist repo rootP w).out ++ [msg] })
        | .ok names =>
          (mBind (installList
            (fun p => installM env mirror (effIndex env dist repo rootP w)
              (readInstalledW rootP (idxLoadWorld env mirror dist repo rootP w))
              dist repo rootP fuel p true) names)
            (fun _ => commitTx rootP
              (readInstalledW rootP (idxLoadWorld env mirror dist repo rootP w))))
            { idxLoadWorld env mirror dist repo rootP w with
              stagedFiles := [], stagedDirs := [], newInstalled := [] }) := by
  unfold cmdInstallM
  simp only [mBind]
  rw [readPackageIndexM_run]
  simp only [mGet, mMod]
  cases system with
  | true =>
    simp only [if_true]
    rfl
  | false =>
    simp only [Bool.false_eq_true, if_false]
    cases hres : resolveAll (effIndex env dist repo rootP w) packages with
    | error msg => rfl
    | ok names => rfl

/-- A failed transaction leaves the filesystem and the persisted state of
its start world untouched: every install stages into the tmp directory
only, and the commit (which alone touches them) never raises. -/
theorem txError_facts (env : Env) (mirror : String) (index : Index)
    (installed : StateMap) (dist repo : String) (rootP : AbsPath) (fuel : Nat)
    (names : List Name) (wr : IWorld) (e : TErr) (w' : IWorld)
    (h : mBind (installList
        (fun p => installM env mirror index installed dist repo rootP fuel p true) names)
        (fun _ => commitTx rootP installed) wr = (.error e, w')) :
    w'.fs = wr.fs ∧ w'.stateContent = wr.stateContent := by
  unfold mBind at h
  cases hI : installList
      (fun p => installM env mirror index installed dist repo rootP fuel p true)
      names wr with
  | mk r wi =>
    rw [hI] at h
    cases r with
    | ok a =>
      simp only at h
      obtain ⟨w2, hok⟩ := commitTx_ok rootP installed wi
      rw [hok] at h
      simp at h
    | error e1 =>
      injection h with h1 h2
      have hF := keepsRS_installList
        (fun p => keepsRS_installM env mirror index installed dist repo rootP fuel p true)
        names wr
      rw [hI] at hF
      rw [← h2]
      exact hF

/-- C1: all-or-nothing install.  If an install command raises (conflict,
extraction failure, missing index entry, …) the persisted state content is
exactly as before, and the filesystem is unchanged except possibly for the
index-cache write performed by the index load before the transaction: in
particular no file of any processed package reaches the install root, and
no state entry is recorded.  Files only reach the install root and the
state is only written by `commitTx`, which runs after every requested
package and all transitive dependencies have been staged without error. -/
theorem claim_C1_all_or_nothing (env : Env) (mirror : String) (rootP : AbsPath)
    (packages : List String) (dist repo : String) (fuel : Nat) (w : IWorld)
    (e : TErr) (w' : IWorld)
    (h : cmdInstallM env mirror rootP packages dist repo false fuel w = (.error e, w')) :
    w'.stateContent = w.stateContent ∧
    (w'.fs = w.fs ∨
      w'.fs = { files := w.fs.files ++ [rootP ++ relCachePath dist repo],
                dirs := addMissing w.fs.dirs (dirChain (rootP ++ relCachePath dist repo)) }) ∧
    (∀ p : AbsPath, p ∉ w.fs.files → p ≠ rootP ++ relCachePath dist repo →
      p ∉ w'.fs.files) := by
  rw [cmdInstallM_run] at h
  simp only [Bool.false_eq_true, if_false] at h
  cases hres : resolveAll (effIndex env dist repo rootP w) packages with
  | error msg =>
    rw [hres] at h
    simp at h
  | ok names =>
    rw [hres] at h
    simp only at h
    have hfacts := txError_facts env mirror (effIndex env dist repo rootP w)
      (readInstalledW rootP (idxLoadWorld env mirror dist repo rootP w))
      dist repo rootP fuel names _ e w' h
    have hfs : w'.fs = (idxLoadWorld env mirror dist repo rootP w).fs := hfacts.1
    have hst : w'.stateContent = (idxLoadWorld env mirror dist repo rootP w).stateContent :=
      hfacts.2
    by_cases hc : w.fs.files.contains (rootP ++ relCachePath dist repo) = true
    · have hidw : idxLoadWorld env mirror dist repo rootP w = w := by
        rw [idxLoadWorld, if_pos hc]
      rw [hidw] at hfs hst
      refine ⟨hst, Or.inl hfs, ?_⟩
      intro p hp _
      rw [hfs]
      exact hp
    · have hidw : idxLoadWorld env mirror dist repo rootP w =
          { w with
            cacheContent := env.feed,
            fs := { files := w.fs.files ++ [rootP ++ relCachePath dist repo],
                    dirs := addMissing w.fs.dirs
                      (dirChain (rootP ++ relCachePath dist repo)) },
            evs := w.evs ++ [.fetch (indexUrl mirror dist repo)] } := by
        rw [idxLoadWorld, if_neg hc]
      rw [hidw] at hfs hst
      refine ⟨hst, Or.inr hfs, ?_⟩
      intro p hp hpc
      rw [hfs]
      simp only [List.mem_append, List.mem_singleton]
      rintro (hin | hin)
      · exact hp hin
      · exact hpc hin

/-- Environment and world for the C1 witness: the cache holds one package
whose archive extraction fails. -/
def envC1 : Env :=
  { feed := [], archive := fun _ => none }

def wC1 : IWorld :=
  { wEmpty with
    fs := { files := [["r"] ++ relCachePath "eoan" "main"], dirs := [] },
    cacheContent := [("pkg", { filename := some "pool/pkg.deb" })] }

theorem claim_C1_witness :
    (cmdInstallM envC1 "m" ["r"] ["pkg"] "eoan" "main" false 1 wC1).2.stateContent =
      wC1.stateContent ∧
    ((cmdInstallM envC1 "m" ["r"] ["pkg"] "eoan" "main" false 1 wC1).2.fs = wC1.fs ∨
      (cmdInstallM envC1 "m" ["r"] ["pkg"] "eoan" "main" false 1 wC1).2.fs =
        { files := wC1.fs.files ++ [["r"] ++ relCachePath "eoan" "main"],
          dirs := addMissing wC1.fs.dirs (dirChain (["r"] ++ relCachePath "eoan" "main")) }) ∧
    (∀ p : AbsPath, p ∉ wC1.fs.files → p ≠ ["r"] ++ relCachePath "eoan" "main" →
      p ∉ (cmdInstallM envC1 "m" ["r"] ["pkg"] "eoan" "main" false 1 wC1).2.fs.files) :=
  claim_C1_all_or_nothing envC1 "m" ["r"] ["pkg"] "eoan" "main" 1 wC1
    (.extractionError "pkg") _ rfl

/-! ### Termination of the recursive install -/

theorem alookup_append {α : Type} (m m' : List (String × α)) (k : String) :
    alookup (m ++ m') k =
      match alookup m k with
      | some v => some v
      | none => alookup m' k := by
  induction m with
  | nil => rfl
  | cons e t ih =>
    obtain ⟨a, b⟩ := e
    by_cases hk : a = k
    · simp [alookup, hk]
    · simp only [List.cons_append, alookup, if_neg hk]
      exact ih

theorem alookup_append_isSome {α : Type} {m m' : List (String × α)} {k : String}
    (h : (alookup m k).isSome = true) : (alookup (m ++ m') k).isSome = true := by
  rw [alookup_append]
  cases hm : alookup m k with
  | none => rw [hm] at h; cases h
  | some v => rfl

theorem alookup_isSome_mem_keys {α : Type} {m : List (String × α)} {k : String}
    (h : (alookup m k).isSome = true) : k ∈ m.map Prod.fst := by
  cases hm : alookup m k with
  | none => rw [hm] at h; cases h
  | some v => exact List.mem_map.mpr ⟨(k, v), alookup_mem hm, rfl⟩

theorem length_filter_mono {α : Type} (l : List α) (p q : α → Bool)
    (h : ∀ a ∈ l, p a = true → q a = true) :
    (l.filter p).length ≤ (l.filter q).length := by
  induction l with
  | nil => exact le_refl _
  | cons a t ih =>
    have iht := ih (fun x hx => h x (List.mem_cons_of_mem _ hx))
    by_cases hp : p a = true
    · have hq := h a (List.mem_cons_self _ _) hp
      simp [List.filter, hp, hq]
      exact iht
    · have hp' : p a = false := Bool.eq_false_iff.mpr hp
      by_cases hq : q a = true
      · simp [List.filter, hp', hq]
        exact le_trans iht (Nat.le_succ _)
      · have hq' : q a = false := Bool.eq_false_iff.mpr hq
        simp [List.filter, hp', hq']
        exact iht

theorem length_filter_lt {α : Type} (l : List α) (p q : α → Bool)
    (h : ∀ a ∈ l, p a = true → q a = true)
    (x : α) (hx : x ∈ l) (hqx : q x = true) (hpx : p x = false) :
    (l.filter p).length < (l.filter q).length := by
  induction l with
  | nil => cases hx
  | cons a t ih =>
    have hmono := length_filter_mono t p q (fun y hy => h y (List.mem_cons_of_mem _ hy))
    rcases List.mem_cons.mp hx with hax | hxt
    · subst hax
      simp [List.filter, hqx, hpx]
      exact Nat.lt_succ_of_le hmono
    · have iht := ih (fun y hy => h y (List.mem_cons_of_mem _ hy)) hxt
      by_cases hp : p a = true
      · have hq := h a (List.mem_cons_self _ _) hp
        simp [List.filter, hp, hq]
        exact iht
      · have hp' : p a = false := Bool.eq_false_iff.mpr hp
        by_cases hq : q a = true
        · simp [List.filter, hp', hq]
          exact Nat.lt_succ_of_le (le_of_lt iht)
        · have hq' : q a = false := Bool.eq_false_iff.mpr hq
          simp [List.filter, hp', hq']
          exact iht

/-- The number of index names neither installed nor committed this
transaction: the measure that strictly shrinks at every non-trivial
recursive `install` (the entry is added to `new_installed` before the
dependencies are visited). -/
def instMeasure (index : Index) (installed : StateMap) (w : IWorld) : Nat :=
  ((index.map Prod.fst).filter
    (fun k => !(alookup installed k).isSome && !(alookup w.newInstalled k).isSome)).length

/-- A computation that only ever extends the newly-committed set. -/
def NewKeeps {α : Type} (x : M α) : Prop :=
  ∀ w k, (alookup w.newInstalled k).isSome = true →
    (alookup ((x w).2).newInstalled k).isSome = true

theorem newKeeps_mPure {α : Type} (a : α) : NewKeeps (mPure a) := fun _ _ h => h

theorem newKeeps_mThrow {α : Type} (e : TErr) : NewKeeps (mThrow (α := α) e) :=
  fun _ _ h => h

theorem newKeeps_mGet : NewKeeps mGet := fun _ _ h => h

theorem newKeeps_mMod {g : IWorld → IWorld}
    (hg : ∀ w k, (alookup w.newInstalled k).isSome = true →
      (alookup (g w).newInstalled k).isSome = true) : NewKeeps (mMod g) := hg

theorem newKeeps_mBind {α β : Type} {x : M α} {g : α → M β}
    (hx : NewKeeps x) (hg : ∀ a, NewKeeps (g a)) : NewKeeps (mBind x g) := by
  intro w k h
  unfold mBind
  cases hxw : x w with
  | mk r w1 =>
    have h1 := hx w k h
    rw [hxw] at h1
    cases r with
    | ok a => exact hg a w1 k h1
    | error e => exact h1

theorem newKeeps_stageFile (rootP : AbsPath) (package : Name) (rel : RelPath) :
    NewKeeps (stageFile rootP package rel) := by
  apply newKeeps_mBind newKeeps_mGet
  intro a
  split
  · exact newKeeps_mThrow _
  · split
    · exact newKeeps_mThrow _
    · exact newKeeps_mMod (fun _ _ h => h)

theorem newKeeps_stageFiles (rootP : AbsPath) (package : Name) :
    ∀ l : List RelPath, NewKeeps (stageFiles rootP package l) := by
  intro l
  induction l with
  | nil => exact newKeeps_mPure ()
  | cons rel t ih => exact newKeeps_mBind (newKeeps_stageFile rootP package rel) (fun _ => ih)

theorem newKeeps_instDeps {step : Name → M Unit} (hstep : ∀ d, NewKeeps (step d)) :
    ∀ l : List String, NewKeeps (instDeps step l) := by
  intro l
  induction l with
  | nil => exact newKeeps_mPure ()
  | cons dep t ih => exact newKeeps_mBind (hstep (depName dep)) (fun _ => ih)

theorem newKeeps_installM (env : Env) (mirror : String) (index : Index)
    (installed : StateMap) (dist repo : String) (rootP : AbsPath) :
    ∀ (n : Nat) (package : Name) (explicit : Bool),
      NewKeeps (installM env mirror index installed dist repo rootP n package explicit) := by
  intro n
  induction n with
  | zero => intro package explicit; exact newKeeps_mThrow _
  | succ n ih =>
    intro package explicit
    rw [installM]
    apply newKeeps_mBind newKeeps_mGet
    intro a
    split
    · split
      · exact newKeeps_mMod (fun _ _ h => h)
      · exact newKeeps_mPure ()
    · split
      · exact newKeeps_mThrow _
      · split
        · exact newKeeps_mThrow _
        · refine newKeeps_mBind (newKeeps_mMod (fun _ _ h => h)) ?_
          intro b
          split
          · exact newKeeps_mThrow _
          · refine newKeeps_mBind (newKeeps_stageFiles _ _ _) ?_
            intro c
            refine newKeeps_mBind (newKeeps_mMod (fun w k h => alookup_append_isSome h)) ?_
            intro d
            exact newKeeps_instDeps (fun d' => ih d' false) _

theorem instMeasure_mono (index : Index) (installed : StateMap) {α : Type}
    {x : M α} (hx : NewKeeps x) (w : IWorld) :
    instMeasure index installed ((x w).2) ≤ instMeasure index installed w := by
  apply length_filter_mono
  intro k _ hk
  simp only [Bool.and_eq_true, Bool.not_eq_true'] at hk ⊢
  refine ⟨hk.1, ?_⟩
  by_cases hnew : (alookup w.newInstalled k).isSome = true
  · have := hx w k hnew
    rw [hk.2] at this
    cases this
  · exact Bool.eq_false_iff.mpr hnew

theorem mBind_mGet_run {α : Type} (f : IWorld → M α) (w : IWorld) :
    mBind mGet f w = f w w := rfl

theorem mBind_mMod_run {α : Type} (g : IWorld → IWorld) (f : Unit → M α) (w : IWorld) :
    mBind (mMod g) f w = f () (g w) := rfl

theorem stageFile_world (rootP : AbsPath) (package : Name) (rel : RelPath) (w : IWorld) :
    ((stageFile rootP package rel w).2).newInstalled = w.newInstalled := by
  rw [stageFile, mBind_mGet_run]
  split
  · rfl
  · split
    · rfl
    · rfl

theorem stageFile_error {rootP : AbsPath} {package : Name} {rel : RelPath} {w : IWorld}
    {e : TErr} {w2 : IWorld} (h : stageFile rootP package rel w = (.error e, w2)) :
    e = .conflictError rel package := by
  rw [stageFile, mBind_mGet_run] at h
  split at h
  · injection h with h1 h2
    injection h1 with h1
    exact h1.symm
  · split at h
    · injection h with h1 h2
      injection h1 with h1
      exact h1.symm
    · injection h with h1 h2
      cases h1

theorem stageFiles_world (rootP : AbsPath) (package : Name) :
    ∀ (l : List RelPath) (w : IWorld),
      ((stageFiles rootP package l w).2).newInstalled = w.newInstalled := by
  intro l
  induction l with
  | nil => intro w; rfl
  | cons rel t ih =>
    intro w
    show ((mBind (stageFile rootP package rel)
      (fun _ => stageFiles rootP package t) w).2).newInstalled = _
    unfold mBind
    cases hs : stageFile rootP package rel w with
    | mk r w1 =>
      have h1 : w1.newInstalled = w.newInstalled := by
        have h2 := stageFile_world rootP package rel w
        rw [hs] at h2
        exact h2
      cases r with
      | ok a => rw [ih w1, h1]
      | error e => exact h1

theorem stageFiles_error {rootP : AbsPath} {package : Name} :
    ∀ {l : List RelPath} {w : IWorld} {e : TErr} {w2 : IWorld},
      stageFiles rootP package l w = (.error e, w2) →
      ∃ rel, e = .conflictError rel package := by
  intro l
  induction l with
  | nil =>
    intro w e w2 h
    injection h with h1 h2
    cases h1
  | cons rel t ih =>
    intro w e w2 h
    rw [stageFiles] at h
    unfold mBind at h
    cases hs : stageFile rootP package rel w with
    | mk r w1 =>
      rw [hs] at h
      cases r with
      | ok a => exact ih h
      | error e1 =>
        injection h with h1 h2
        injection h1 with h1
        exact ⟨rel, h1 ▸ stageFile_error hs⟩

theorem instDeps_no_fuelOut (P : IWorld → Prop) (step : Name → M Unit)
    (hok : ∀ d w a w2, P w → step d w = (.ok a, w2) → P w2)
    (herr : ∀ d w e w2, P w → step d w = (.error e, w2) → e ≠ .fuelOut) :
    ∀ (l : List String) (w : IWorld), P w → (instDeps step l w).1 ≠ .error .fuelOut := by
  intro l
  induction l with
  | nil =>
    intro w hp hc
    cases hc
  | cons dep t ih =>
    intro w hp
    rw [instDeps]
    unfold mBind
    cases hs : step (depName dep) w with
    | mk r w1 =>
      cases r with
      | ok a => exact ih w1 (hok _ w a w1 hp hs)
      | error e =>
        intro hc
        injection hc with hc
        exact herr _ w e w1 hp hs hc

/-- After a package's files are staged and its entry recorded, the
dependency recursion runs at one fuel less over a strictly smaller measure:
the package just committed was an uncommitted index name. -/
theorem stage_commit_deps_no_fuelOut (env : Env) (mirror : String) (index : Index)
    (installed : StateMap) (dist repo : String) (rootP : AbsPath) (n : Nat)
    (package : Name) (contents : List RelPath) (info : PInfo) (dependencies : List String)
    (hstep_ne : ∀ (d : Name) (w : IWorld), instMeasure index installed w < n →
      (installM env mirror index installed dist repo rootP n d false w).1 ≠ .error .fuelOut)
    (w1 : IWorld)
    (hmeas : instMeasure index installed w1 < n + 1)
    (hnotnew : (alookup w1.newInstalled package).isSome = false)
    (hnotinst : (alookup installed package).isSome = false)
    (hpkgidx : package ∈ index.map Prod.fst) :
    ((mBind (stageFiles rootP package contents)
      (fun _ => mBind (mMod (fun w => { w with
          newInstalled := w.newInstalled ++ [(package, info)] }))
        (fun _ => instDeps
          (fun d => installM env mirror index installed dist repo rootP n d false)
          dependencies))) w1).1 ≠ .error .fuelOut := by
  unfold mBind
  cases hst : stageFiles rootP package contents w1 with
  | mk r w2 =>
    cases r with
    | error e =>
      intro hc
      injection hc with hc
      obtain ⟨rel, hrel⟩ := stageFiles_error hst
      rw [hrel] at hc
      cases hc
    | ok a =>
      have hw2new : w2.newInstalled = w1.newInstalled := by
        have h2 := stageFiles_world rootP package contents w1
        rw [hst] at h2
        exact h2
      simp only [mMod]
      have hnone : alookup w2.newInstalled package = none := by
        rw [hw2new]
        cases ho : alookup w1.newInstalled package with
        | none => rfl
        | some v => rw [ho] at hnotnew; cases hnotnew
      have hlt : instMeasure index installed
          { w2 with newInstalled := w2.newInstalled ++ [(package, info)] } <
          instMeasure index installed w1 := by
        apply length_filter_lt
        · intro k _ hk
          simp only [Bool.and_eq_true, Bool.not_eq_true'] at hk ⊢
          refine ⟨hk.1, ?_⟩
          by_cases hnew : (alookup w1.newInstalled k).isSome = true
          · have h3 : (alookup (w2.newInstalled ++ [(package, info)]) k).isSome = true := by
              rw [hw2new]
              exact alookup_append_isSome hnew
            rw [hk.2] at h3
            cases h3
          · exact Bool.eq_false_iff.mpr hnew
        · exact hpkgidx
        · simp only [Bool.and_eq_true, Bool.not_eq_true']
          exact ⟨hnotinst, hnotnew⟩
        · have hsome : (alookup (w2.newInstalled ++ [(package, info)]) package).isSome = true := by
            rw [alookup_append, hnone]
            simp [alookup]
          simp [hsome]
      have hmeas3 : instMeasure index installed
          { w2 with newInstalled := w2.newInstalled ++ [(package, info)] } < n := by
        omega
      exact instDeps_no_fuelOut (fun w => instMeasure index installed w < n) _
        (fun d w a' w2' hp heq => by
          have hm := instMeasure_mono index installed
            (newKeeps_installM env mirror index installed dist repo rootP n d false) w
          rw [heq] at hm
          exact lt_of_le_of_lt hm hp)
        (fun d w e w2' hp heq hfe => by
          have hne := hstep_ne d w hp
          rw [heq] at hne
          exact hne (hfe ▸ rfl))
        dependencies _ hmeas3

/-- The recursive install never exhausts its fuel once the fuel exceeds the
number of uncommitted index names, even on cyclic dependency graphs: the
membership check short-circuits revisits because the entry is committed
before the recursion. -/
theorem installM_no_fuelOut (env : Env) (mirror : String) (index : Index)
    (installed : StateMap) (dist repo : String) (rootP : AbsPath) :
    ∀ (n : Nat) (package : Name) (explicit : Bool) (w : IWorld),
      instMeasure index installed w < n →
      (installM env mirror index installed dist repo rootP n package explicit w).1 ≠
        .error .fuelOut := by
  intro n
  induction n with
  | zero => intro package explicit w hm; exact absurd hm (Nat.not_lt_zero _)
  | succ n ih =>
    intro package explicit w hm
    rw [installM, mBind_mGet_run]
    by_cases hmem : ((alookup installed package).isSome ||
        (alookup w.newInstalled package).isSome) = true
    · rw [if_pos hmem]
      split
      · intro hc; cases hc
      · intro hc; cases hc
    · rw [if_neg hmem]
      simp only [Bool.or_eq_true, not_or, Bool.not_eq_true] at hmem
      cases hidx : alookup index package with
      | none =>
        simp [mThrow]
      | some entry =>
        simp only
        cases hfn : entry.filename with
        | none =>
          simp [mThrow]
        | some fn =>
          simp only
          rw [mBind_mMod_run]
          cases har : env.archive fn with
          | none =>
            simp [mThrow]
          | some contents =>
            simp only
            exact stage_commit_deps_no_fuelOut env mirror index installed dist repo rootP
              n package contents _ _ (fun d w' hw' => ih d false w' hw') _
              hm hmem.2 hmem.1
              (alookup_isSome_mem_keys (by rw [hidx]; rfl))

/-- C10: termination on cyclic dependency graphs.  The recursive install
cannot exhaust its fuel once the fuel exceeds the number of index names not
yet installed or committed — the entry joins `new_installed` before the
dependency recursion, so a revisit short-circuits at the membership check;
symmetrically the recursive remove cannot exhaust its fuel once the fuel
exceeds the number of installed packages — the entry is deleted before the
cascade recursion. -/
theorem claim_C10_termination (env : Env) (mirror : String) (index : Index)
    (installed : StateMap) (dist repo : String) (rootP : AbsPath) :
    (∀ (n : Nat) (package : Name) (explicit : Bool) (w : IWorld),
      instMeasure index installed w < n →
      (installM env mirror index installed dist repo rootP n package explicit w).1 ≠
        .error .fuelOut) ∧
    (∀ (n : Nat) (inst : StateMap) (fs : Fs) (p : Name) (q : Bool),
      inst.length < n → removeM rootP n inst fs p q ≠ .error .fuelOut) :=
  ⟨installM_no_fuelOut env mirror index installed dist repo rootP,
   fun n inst fs p q h => removeM_no_fuelOut rootP n inst fs p q h⟩

/-- A cyclic two-package index (`a` depends on `b`, `b` depends on `a`). -/
def idxC10 : Index :=
  [("a", { filename := some "a.deb", depends := some ["b"] }),
   ("b", { filename := some "b.deb", depends := some ["a"] })]

def envC10 : Env :=
  { feed := [],
    archive := fun fn =>
      if fn = "a.deb" then some [["fa"]]
      else if fn = "b.deb" then some [["fb"]] else none }

def instC10 : StateMap :=
  [("p", { dist := "eoan", repo := "main", explicit := .pb true,
           files := [], depends := ["p"] })]

theorem claim_C10_witness :
    (installM envC10 "m" idxC10 [] "eoan" "main" ["r"] 3 "a" true wEmpty).1 ≠
      .error .fuelOut ∧
    removeM ["r"] 2 instC10 { files := [], dirs := [] } "p" false ≠ .error .fuelOut :=
  ⟨(claim_C10_termination envC10 "m" idxC10 [] "eoan" "main" ["r"]).1 3 "a" true wEmpty
    (by decide),
   (claim_C10_termination envC10 "m" idxC10 [] "eoan" "main" ["r"]).2 2 instC10
    { files := [], dirs := [] } "p" false (by decide)⟩

/-! ### File-ownership disjointness: predicates and list lemmas -/

theorem alookup_none_keys {α : Type} {m : List (String × α)} {k : String} :
    alookup m k = none ↔ k ∉ akeys m := by
  rw [alookup_none_iff]
  constructor
  · intro h hk
    obtain ⟨⟨a, b⟩, he, hek⟩ := List.mem_map.mp hk
    cases hek
    exact h b he
  · intro h v hv
    exact h (List.mem_map.mpr ⟨(k, v), hv, rfl⟩)

theorem alookup_isSome_of_mem {α : Type} {m : List (String × α)} {k : String} {v : α}
    (h : (k, v) ∈ m) : (alookup m k).isSome = true := by
  cases ho : alookup m k with
  | some x => rfl
  | none =>
    rw [alookup_none_iff] at ho
    exact absurd h (ho v)

theorem aupdate_disjoint {α : Type} (old new : List (String × α))
    (h : ∀ k ∈ akeys new, alookup old k = none) : aupdate old new = old ++ new := by
  unfold aupdate
  have h1 : ∀ e ∈ old, alookup new e.1 = none := by
    intro e he
    cases hn : alookup new e.1 with
    | none => rfl
    | some v =>
      have hk : e.1 ∈ akeys new := by
        exact List.mem_map.mpr ⟨(e.1, v), alookup_mem hn, rfl⟩
      have := h e.1 hk
      rw [alookup_none_keys] at this
      exact absurd (List.mem_map.mpr ⟨e, he, rfl⟩) this
  have h2 : (old.map (fun e =>
      match alookup new e.1 with
      | some v => (e.1, v)
      | none => e)) = old := by
    rw [show old.map (fun e =>
        match alookup new e.1 with
        | some v => (e.1, v)
        | none => e) = old.map id from
      List.map_congr_left (fun e he => by rw [h1 e he]; rfl)]
    exact List.map_id old
  have h3 : new.filter (fun e => !((akeys old).contains e.1)) = new := by
    rw [List.filter_eq_self]
    intro e he
    have hk : e.1 ∈ akeys new := List.mem_map.mpr ⟨e, he, rfl⟩
    have := h e.1 hk
    rw [alookup_none_keys] at this
    simp only [Bool.not_eq_true']
    rw [Bool.eq_false_iff]
    intro hc
    exact this (containsB_iff.mp hc)
  rw [h2, h3]

/-- All files recorded by the newly-committed entries, in order. -/
def flatFiles : StateMap → List RelPath
  | [] => []
  | e :: t => e.2.files ++ flatFiles t

theorem flatFiles_append (m m' : StateMap) :
    flatFiles (m ++ m') = flatFiles m ++ flatFiles m' := by
  induction m with
  | nil => rfl
  | cons e t ih => simp [flatFiles, ih]

theorem mem_flatFiles {m : StateMap} {e : Name × PInfo} {f : RelPath}
    (he : e ∈ m) (hf : f ∈ e.2.files) : f ∈ flatFiles m := by
  induction m with
  | nil => cases he
  | cons x t ih =>
    rcases List.mem_cons.mp he with hx | ht
    · subst hx
      exact List.mem_append.mpr (Or.inl hf)
    · exact List.mem_append.mpr (Or.inr (ih ht))

/-- Pairwise file-disjointness of the entries of a state map. -/
def PairDisj (st : StateMap) : Prop :=
  List.Pairwise (fun e e' => e.2.files.Disjoint e'.2.files) st

theorem pairDisj_of_flat_nodup : ∀ {m : StateMap}, (flatFiles m).Nodup → PairDisj m := by
  intro m
  induction m with
  | nil => intro _; exact List.Pairwise.nil
  | cons e t ih =>
    intro h
    rw [show flatFiles (e :: t) = e.2.files ++ flatFiles t from rfl,
      List.nodup_append] at h
    refine List.Pairwise.cons ?_ (ih h.2.1)
    intro e' he' f hf hf'
    exact h.2.2 hf (mem_flatFiles he' hf')

/-- Every installed file is present on disk. -/
def FilesOn (rootP : AbsPath) (st : StateMap) (fs : Fs) : Prop :=
  ∀ e ∈ st, ∀ f ∈ e.2.files, (rootP ++ f) ∈ fs.files

/-- The reachable-state invariant on a state map and a filesystem. -/
def GoodSt (rootP : AbsPath) (st : StateMap) (fs : Fs) : Prop :=
  (akeys st).Nodup ∧ PairDisj st ∧ FilesOn rootP st fs

/-- The reachable-state invariant on a world. -/
def GoodW (rootP : AbsPath) (w : IWorld) : Prop :=
  GoodSt rootP (readInstalledW rootP w) w.fs

theorem filesOn_mono {rootP : AbsPath} {st : StateMap} {fs fs' : Fs}
    (hsub : ∀ u ∈ fs.files, u ∈ fs'.files) (h : FilesOn rootP st fs) :
    FilesOn rootP st fs' :=
  fun e he f hf => hsub _ (h e he f hf)

theorem moveToRoot_files (rootP : AbsPath) :
    ∀ (l : List RelPath) (fs : Fs),
      (moveToRoot rootP l fs).files = fs.files ++ l.map (fun rel => rootP ++ rel) := by
  intro l
  induction l with
  | nil => intro fs; simp [moveToRoot]
  | cons rel t ih =>
    intro fs
    rw [moveToRoot, ih]
    simp

theorem climbUp_files : ∀ (n : Nat) (fs : Fs) (d : AbsPath), (climbUp n fs d).files = fs.files := by
  intro n
  induction n with
  | zero => intro fs d; rfl
  | succ n ih =>
    intro fs d
    rw [climbUp]
    split
    · rfl
    · split
      · rw [ih]
        rfl
      · rfl

theorem removedirsTry_files (fs : Fs) (d : AbsPath) :
    (removedirsTry fs d).files = fs.files := by
  rw [removedirsTry]
  split
  · rw [climbUp_files]
    rfl
  · rfl

theorem deleteAndPrune_keeps {rootP : AbsPath} {fs : Fs} {f : RelPath} {fs1 : Fs}
    (h : deleteAndPrune rootP fs f = .ok fs1)
    {u : AbsPath} (hu : u ∈ fs.files) (hne : u ≠ rootP ++ f) : u ∈ fs1.files := by
  rw [deleteAndPrune] at h
  split at h
  · cases h
    rw [removedirsTry_files]
    exact (List.mem_erase_of_ne hne).mpr hu
  · split at h
    · cases h
    · cases h
      rw [removedirsTry_files]
      exact hu

theorem delFiles_keeps {rootP : AbsPath} :
    ∀ {l : List RelPath} {fs fs1 : Fs}, delFiles rootP l fs = .ok fs1 →
      ∀ u ∈ fs.files, (∀ f ∈ l, u ≠ rootP ++ f) → u ∈ fs1.files := by
  intro l
  induction l with
  | nil =>
    intro fs fs1 h u hu _
    rw [delFiles] at h
    cases h
    exact hu
  | cons f t ih =>
    intro fs fs1 h u hu hne
    rw [delFiles] at h
    cases hd : deleteAndPrune rootP fs f with
    | error e => rw [hd] at h; cases h
    | ok fsx =>
      rw [hd] at h
      exact ih h u
        (deleteAndPrune_keeps hd hu (hne f (List.mem_cons_self _ _)))
        (fun g hg => hne g (List.mem_cons_of_mem _ hg))

/-- The transaction invariant: the staged files are exactly the files of
the newly-committed entries in order, without duplicates, all absent from
the real filesystem; the committed names are distinct and none of them is
in the installed snapshot. -/
def TInv (rootP : AbsPath) (installed : StateMap) (w : IWorld) : Prop :=
  w.stagedFiles = flatFiles w.newInstalled ∧
  w.stagedFiles.Nodup ∧
  (∀ f ∈ w.stagedFiles, (rootP ++ f) ∉ w.fs.files ∧ (rootP ++ f) ∉ w.fs.dirs) ∧
  (akeys w.newInstalled).Nodup ∧
  (∀ k ∈ akeys w.newInstalled, alookup installed k = none)

theorem stageFile_ok_facts {rootP : AbsPath} {package : Name} {rel : RelPath}
    {w : IWorld} {a : Unit} {w1 : IWorld}
    (h : stageFile rootP package rel w = (.ok a, w1)) :
    w1 = { w with stagedFiles := w.stagedFiles ++ [rel],
                  stagedDirs := addMissing w.stagedDirs (dirChain rel) } ∧
    (rootP ++ rel) ∉ w.fs.files ∧ (rootP ++ rel) ∉ w.fs.dirs ∧
    rel ∉ w.stagedFiles := by
  rw [stageFile, mBind_mGet_run] at h
  split at h
  · injection h with h1 h2
    cases h1
  · split at h
    · injection h with h1 h2
      cases h1
    · rename_i hex hst
      injection h with h1 h2
      simp only [Fs.existsPath, Bool.or_eq_true, not_or, Bool.not_eq_true] at hex hst
      refine ⟨h2.symm, ?_, ?_, ?_⟩
      · intro hc
        have hc2 := containsB_iff.mpr hc
        rw [hex.1] at hc2
        cases hc2
      · intro hc
        have hc2 := containsB_iff.mpr hc
        rw [hex.2] at hc2
        cases hc2
      · intro hc
        have hc2 := containsB_iff.mpr hc
        rw [hst.1] at hc2
        cases hc2

theorem stageFiles_ok_facts {rootP : AbsPath} {package : Name} :
    ∀ {l : List RelPath} {w : IWorld} {a : Unit} {w2 : IWorld},
      stageFiles rootP package l w = (.ok a, w2) →
      w2.fs = w.fs ∧ w2.stateContent = w.stateContent ∧
      w2.newInstalled = w.newInstalled ∧
      w2.stagedFiles = w.stagedFiles ++ l ∧
      (w.stagedFiles.Nodup → w2.stagedFiles.Nodup) ∧
      ((∀ f ∈ w.stagedFiles, (rootP ++ f) ∉ w.fs.files ∧ (rootP ++ f) ∉ w.fs.dirs) →
        ∀ f ∈ w2.stagedFiles, (rootP ++ f) ∉ w.fs.files ∧ (rootP ++ f) ∉ w.fs.dirs) := by
  intro l
  induction l with
  | nil =>
    intro w a w2 h
    injection h with h1 h2
    subst h2
    exact ⟨rfl, rfl, rfl, (List.append_nil _).symm, fun hn => hn, fun hf => hf⟩
  | cons rel t ih =>
    intro w a w2 h
    rw [stageFiles] at h
    unfold mBind at h
    cases hs : stageFile rootP package rel w with
    | mk r w1 =>
      rw [hs] at h
      cases r with
      | error e => cases h
      | ok b =>
        obtain ⟨hw1, hfsf, hfsd, hnotst⟩ := stageFile_ok_facts hs
        subst hw1
        obtain ⟨h1, h2, h3, h4, h5, h6⟩ := ih h
        refine ⟨h1, h2, h3, ?_, ?_, ?_⟩
        · rw [h4]
          simp
        · intro hnd
          apply h5
          simp only [List.nodup_append, List.nodup_cons, List.not_mem_nil,
            not_false_iff, List.nodup_nil, and_true, true_and]
          refine ⟨hnd, ?_⟩
          intro x hx hx1
          rcases List.mem_singleton.mp hx1 with h
          subst h
          exact hnotst hx
        · intro hfresh f hf
          have hfresh1 : ∀ g ∈ w.stagedFiles ++ [rel],
              (rootP ++ g) ∉ w.fs.files ∧ (rootP ++ g) ∉ w.fs.dirs := by
            intro g hg
            rcases List.mem_append.mp hg with hg | hg
            · exact hfresh g hg
            · rcases List.mem_singleton.mp hg with h
              subst h
              exact ⟨hfsf, hfsd⟩
          exact h6 hfresh1 f hf

theorem instDeps_inv (P : IWorld → Prop) (step : Name → M Unit)
    (hstep : ∀ d w a w2, step d w = (.ok a, w2) → P w → P w2) :
    ∀ (l : List String) (w : IWorld) (a : Unit) (w2 : IWorld),
      instDeps step l w = (.ok a, w2) → P w → P w2 := by
  intro l
  induction l with
  | nil =>
    intro w a w2 h hp
    injection h with h1 h2
    subst h2
    exact hp
  | cons dep t ih =>
    intro w a w2 h hp
    rw [instDeps] at h
    unfold mBind at h
    cases hs : step (depName dep) w with
    | mk r w1 =>
      rw [hs] at h
      cases r with
      | error e => cases h
      | ok b => exact ih w1 a w2 h (hstep _ w b w1 hs hp)

theorem installList_inv (P : IWorld → Prop) (step : Name → M Unit)
    (hstep : ∀ d w a w2, step d w = (.ok a, w2) → P w → P w2) :
    ∀ (l : List Name) (w : IWorld) (a : Unit) (w2 : IWorld),
      installList step l w = (.ok a, w2) → P w → P w2 := by
  intro l
  induction l with
  | nil =>
    intro w a w2 h hp
    injection h with h1 h2
    subst h2
    exact hp
  | cons p t ih =>
    intro w a w2 h hp
    rw [installList] at h
    unfold mBind at h
    cases hs : step p w with
    | mk r w1 =>
      rw [hs] at h
      cases r with
      | error e => cases h
      | ok b => exact ih w1 a w2 h (hstep _ w b w1 hs hp)

theorem isSome_false_none {α : Type} {o : Option α} (h : o.isSome = false) : o = none := by
  cases o with
  | none => rfl
  | some v => cases h

theorem stage_commit_deps_TInv (rootP : AbsPath) (installed : StateMap)
    (package : Name) (contents : List RelPath) (info : PInfo)
    (dependencies : List String) (step : Name → M Unit)
    (hstep : ∀ d w a w2, step d w = (.ok a, w2) →
      TInv rootP installed w → TInv rootP installed w2)
    (hinfo : info.files = contents)
    (w1 : IWorld) (a : Unit) (w' : IWorld)
    (h : (mBind (stageFiles rootP package contents)
      (fun _ => mBind (mMod (fun w => { w with
          newInstalled := w.newInstalled ++ [(package, info)] }))
        (fun _ => instDeps step dependencies))) w1 = (.ok a, w'))
    (hinv : TInv rootP installed w1)
    (hnotnew : (alookup w1.newInstalled package).isSome = false)
    (hnotinst : (alookup installed package).isSome = false) :
    TInv rootP installed w' := by
  unfold mBind at h
  cases hst : stageFiles rootP package contents w1 with
  | mk r w2 =>
    rw [hst] at h
    cases r with
    | error e => cases h
    | ok b =>
      obtain ⟨hfs, hsc, hni, hsf, hnd, hfr⟩ := stageFiles_ok_facts hst
      simp only [mMod] at h
      have hpkgkeys : package ∉ akeys w1.newInstalled := by
        rw [← alookup_none_keys]
        exact isSome_false_none hnotnew
      have hinv3 : TInv rootP installed
          { w2 with newInstalled := w2.newInstalled ++ [(package, info)] } := by
        obtain ⟨i1, i2, i3, i4, i5⟩ := hinv
        refine ⟨?_, ?_, ?_, ?_, ?_⟩
        · show w2.stagedFiles = flatFiles (w2.newInstalled ++ [(package, info)])
          rw [flatFiles_append, hsf, hni, ← i1]
          rw [show flatFiles [(package, info)] = contents from by
            show info.files ++ flatFiles [] = contents
            rw [show flatFiles ([] : StateMap) = [] from rfl, List.append_nil, hinfo]]
        · show w2.stagedFiles.Nodup
          exact hnd i2
        · show ∀ f ∈ w2.stagedFiles, (rootP ++ f) ∉ w2.fs.files ∧ (rootP ++ f) ∉ w2.fs.dirs
          intro f hf
          rw [hfs]
          exact hfr i3 f hf
        · show (akeys (w2.newInstalled ++ [(package, info)])).Nodup
          rw [hni]
          show (akeys (w1.newInstalled ++ [(package, info)])).Nodup
          rw [show akeys (w1.newInstalled ++ [(package, info)]) =
            akeys w1.newInstalled ++ [package] from by simp [akeys]]
          rw [List.nodup_append]
          refine ⟨i4, List.nodup_singleton _, ?_⟩
          intro x hx hx1
          rcases List.mem_singleton.mp hx1 with h'
          subst h'
          exact hpkgkeys hx
        · intro k hk
          rw [hni] at hk
          rw [show akeys (w1.newInstalled ++ [(package, info)]) =
            akeys w1.newInstalled ++ [package] from by simp [akeys]] at hk
          rcases List.mem_append.mp hk with hk | hk
          · exact i5 k hk
          · rcases List.mem_singleton.mp hk with h'
            subst h'
            exact isSome_false_none hnotinst
      exact instDeps_inv (TInv rootP installed) step hstep dependencies _ a w' h hinv3

theorem installM_TInv (env : Env) (mirror : String) (index : Index)
    (installed : StateMap) (dist repo : String) (rootP : AbsPath) :
    ∀ (n : Nat) (package : Name) (explicit : Bool) (w : IWorld) (a : Unit) (w' : IWorld),
      installM env mirror index installed dist repo rootP n package explicit w = (.ok a, w') →
      TInv rootP installed w → TInv rootP installed w' := by
  intro n
  induction n with
  | zero =>
    intro package explicit w a w' h _
    injection h with h1 h2
    cases h1
  | succ n ih =>
    intro package explicit w a w' h hinv
    rw [installM, mBind_mGet_run] at h
    by_cases hmem : ((alookup installed package).isSome ||
        (alookup w.newInstalled package).isSome) = true
    · rw [if_pos hmem] at h
      split at h
      · injection h with h1 h2
        subst h2
        exact hinv
      · injection h with h1 h2
        subst h2
        exact hinv
    · rw [if_neg hmem] at h
      simp only [Bool.or_eq_true, not_or, Bool.not_eq_true] at hmem
      cases hidx : alookup index package with
      | none =>
        rw [hidx] at h
        simp [mThrow] at h
      | some entry =>
        rw [hidx] at h
        simp only at h
        cases hfn : entry.filename with
        | none =>
          rw [hfn] at h
          simp [mThrow] at h
        | some fn =>
          rw [hfn] at h
          simp only at h
          rw [mBind_mMod_run] at h
          cases har : env.archive fn with
          | none =>
            rw [har] at h
            simp [mThrow] at h
          | some contents =>
            rw [har] at h
            simp only at h
            exact stage_commit_deps_TInv rootP installed package contents _ _ _
              (fun d w0 a0 w2 hh hp => ih d false w0 a0 w2 hh hp)
              rfl _ a w' h hinv hmem.2 hmem.1

theorem removeM_GoodSt (rootP : AbsPath) :
    ∀ (n : Nat) (inst : StateMap) (fs : Fs) (p : Name) (q : Bool)
      (i' : StateMap) (f' : Fs),
      removeM rootP n inst fs p q = .ok (i', f') →
      GoodSt rootP inst fs → GoodSt rootP i' f' := by
  intro n
  induction n with
  | zero => intro inst fs p q i' f' h _; cases h
  | succ n ih =>
    intro inst fs p q i' f' h hg
    rw [removeM] at h
    cases hl : alookup inst p with
    | none =>
      rw [hl] at h
      cases h
      exact hg
    | some info =>
      rw [hl] at h
      simp only at h
      split at h
      · cases hd : delFiles rootP info.files fs with
        | error e => rw [hd] at h; cases h
        | ok fs1 =>
          rw [hd] at h
          have hg1 : GoodSt rootP (aerase inst p) fs1 := by
            obtain ⟨g1, g2, g3⟩ := hg
            have hsubl : List.Sublist (aerase inst p) inst := List.filter_sublist _
            refine ⟨?_, ?_, ?_⟩
            · exact List.Nodup.sublist (List.Sublist.map Prod.fst hsubl) g1
            · exact List.Pairwise.sublist hsubl g2
            · intro e he f hf
              obtain ⟨hein, hene⟩ := mem_aerase.mp he
              apply delFiles_keeps hd _ (g3 e hein f hf)
              intro g hgmem hcon
              have hfg : f = g := List.append_cancel_left hcon
              have hpmem : (p, info) ∈ inst := alookup_mem hl
              have hne : e ≠ (p, info) := fun hcon2 => hene (by rw [hcon2])
              have hdisj : e.2.files.Disjoint info.files :=
                g2.forall (fun a b hab => List.Disjoint.symm hab) hein hpmem hne
              exact hdisj hf (hfg ▸ hgmem)
          refine remDeps_inv (fun i f => GoodSt rootP i f) _ ?_
            info.depends (aerase inst p) fs1 i' f' hg1 h
          intro d i f a b hp hs
          simp only at hs
          cases hld : alookup i d with
          | none => rw [hld] at hs; cases hs; exact hp
          | some di =>
            rw [hld] at hs
            simp only at hs
            by_cases hx : (!di.explicit.truthy) = true
            · rw [if_pos hx] at hs
              exact ih i f d true a b hs hp
            · rw [if_neg hx] at hs
              cases hs
              exact hp
      · split at h
        · cases h
          exact hg
        · cases h

theorem statePath_ne_cachePath (dist repo : String) :
    relStatePath ≠ relCachePath dist repo := by
  intro h
  have hlen := congrArg List.length h
  simp [relStatePath, relCachePath] at hlen

theorem contains_append_ne {l : List AbsPath} {c s : AbsPath} (hne : s ≠ c) :
    (l ++ [c]).contains s = l.contains s := by
  by_cases hc : l.contains s = true
  · rw [hc]
    exact containsB_iff.mpr (List.mem_append.mpr (Or.inl (containsB_iff.mp hc)))
  · have h1 : l.contains s = false := Bool.eq_false_iff.mpr hc
    rw [h1, Bool.eq_false_iff]
    intro hc2
    rcases List.mem_append.mp (containsB_iff.mp hc2) with hm | hm
    · exact hc (containsB_iff.mpr hm)
    · exact hne (List.mem_singleton.mp hm)

theorem readInstalled_idxLoad (env : Env) (mirror dist repo : String)
    (rootP : AbsPath) (w : IWorld) :
    readInstalledW rootP (idxLoadWorld env mirror dist repo rootP w) =
      readInstalledW rootP w := by
  rw [idxLoadWorld]
  split
  · rfl
  · rw [readInstalledW, readInstalledW]
    have hne : rootP ++ relStatePath ≠ rootP ++ relCachePath dist repo :=
      fun hc => statePath_ne_cachePath dist repo (List.append_cancel_left hc)
    rw [show (({ w with
        cacheContent := env.feed,
        fs := { files := w.fs.files ++ [rootP ++ relCachePath dist repo],
                dirs := addMissing w.fs.dirs (dirChain (rootP ++ relCachePath dist repo)) },
        evs := w.evs ++ [.fetch (indexUrl mirror dist repo)] } : IWorld)).fs.files =
      w.fs.files ++ [rootP ++ relCachePath dist repo] from rfl]
    rw [contains_append_ne hne]

theorem readInstalled_write (rootP : AbsPath) (st : StateMap) (w : IWorld) :
    readInstalledW rootP (writeInstalledW rootP st w) = st := by
  by_cases hc : w.fs.files.contains (rootP ++ relStatePath) = true
  · rw [writeInstalledW, readInstalledW]
    simp only
    rw [if_pos hc, if_pos hc]
  · rw [writeInstalledW, readInstalledW]
    simp only
    rw [if_neg hc]
    rw [if_pos (containsB_iff.mpr
      (List.mem_append.mpr (Or.inr (List.mem_singleton_self _))))]

theorem writeInstalled_files_sub (rootP : AbsPath) (st : StateMap) (w : IWorld) :
    ∀ u ∈ w.fs.files, u ∈ (writeInstalledW rootP st w).fs.files := by
  intro u hu
  rw [writeInstalledW]
  simp only
  split
  · exact hu
  · exact List.mem_append.mpr (Or.inl hu)

theorem idxLoad_files_sub (env : Env) (mirror dist repo : String)
    (rootP : AbsPath) (w : IWorld) :
    ∀ u ∈ w.fs.files, u ∈ (idxLoadWorld env mirror dist repo rootP w).fs.files := by
  intro u hu
  rw [idxLoadWorld]
  split
  · exact hu
  · exact List.mem_append.mpr (Or.inl hu)

theorem commitTx_run (rootP : AbsPath) (installed : StateMap) (w : IWorld) :
    commitTx rootP installed w =
      (.ok (), writeInstalledW rootP (aupdate installed w.newInstalled)
        { w with fs := moveToRoot rootP w.stagedFiles w.fs, stagedFiles := [] }) := rfl

theorem sysLoopM_facts (rootP : AbsPath) :
    ∀ (l : List Name) (inst : StateMap) (w : IWorld),
      ∃ i' w2, sysLoopM l inst w = (.ok i', w2) ∧ w2.fs = w.fs ∧
        (∀ fs, GoodSt rootP inst fs → GoodSt rootP i' fs) := by
  intro l
  induction l with
  | nil => intro inst w; exact ⟨inst, w, rfl, rfl, fun fs hg => hg⟩
  | cons p t ih =>
    intro inst w
    rw [sysLoopM]
    by_cases hp : (alookup inst p).isSome = true
    · rw [if_pos hp]
      obtain ⟨i', w2, hrun, hfs, hpres⟩ := ih inst
        { w with out := w.out ++ [alreadyMsg p] }
      refine ⟨i', w2, ?_, hfs, hpres⟩
      rw [mBind_mMod_run]
      exact hrun
    · rw [if_neg hp]
      obtain ⟨i', w2, hrun, hfs, hpres⟩ := ih (inst ++ [(p, sysInfo)]) w
      refine ⟨i', w2, hrun, hfs, ?_⟩
      intro fs hg
      apply hpres
      obtain ⟨g1, g2, g3⟩ := hg
      have hnone := isSome_false_none (Bool.eq_false_iff.mpr hp)
      refine ⟨?_, ?_, ?_⟩
      · rw [show akeys (inst ++ [(p, sysInfo)]) = akeys inst ++ [p] from by simp [akeys]]
        rw [List.nodup_append]
        refine ⟨g1, List.nodup_singleton _, ?_⟩
        intro x hx hx1
        rcases List.mem_singleton.mp hx1 with h'
        subst h'
        exact (alookup_none_keys.mp hnone) hx
      · rw [PairDisj, List.pairwise_append]
        refine ⟨g2, by simp, ?_⟩
        intro e he e' he'
        rcases List.mem_singleton.mp he' with h'
        subst h'
        intro a ha hb
        simp [sysInfo] at hb
      · intro e he f hf
        rcases List.mem_append.mp he with he | he
        · exact g3 e he f hf
        · rcases List.mem_singleton.mp he with h'
          subst h'
          simp [sysInfo] at hf

/-- A successful transaction (stage every resolved top-level request, then
commit) carried out from a fresh staging area over a good snapshot yields a
world whose persisted state is again good: the committed entries' files are
pairwise disjoint among themselves (they were staged through the conflict
check) and disjoint from every previously installed package's files (those
are on disk, staged files are fresh), and every recorded file ends up under
the install root. -/
theorem txOk_GoodW (env : Env) (mirror : String) (index : Index)
    (installed : StateMap) (dist repo : String) (rootP : AbsPath) (fuel : Nat)
    (names : List Name) (wr : IWorld) (w' : IWorld)
    (h : mBind (installList
        (fun p => installM env mirror index installed dist repo rootP fuel p true) names)
        (fun _ => commitTx rootP installed) wr = (.ok (), w'))
    (hstart : TInv rootP installed wr)
    (hg : GoodSt rootP installed wr.fs) : GoodW rootP w' := by
  unfold mBind at h
  cases hI : installList
      (fun p => installM env mirror index installed dist repo rootP fuel p true) names wr with
  | mk r wi =>
    rw [hI] at h
    cases r with
    | error e => cases h
    | ok a =>
      simp only at h
      rw [commitTx_run] at h
      injection h with h1 h2
      have hTi : TInv rootP installed wi :=
        installList_inv (TInv rootP installed) _
          (fun d w0 a0 w2 hh hp =>
            installM_TInv env mirror index installed dist repo rootP fuel d true w0 a0 w2 hh hp)
          names wr a wi hI hstart
      have hF := keepsRS_installList
        (fun p => keepsRS_installM env mirror index installed dist repo rootP fuel p true)
        names wr
      rw [hI] at hF
      obtain ⟨hFfs, hFsc⟩ := hF
      obtain ⟨t1, t2, t3, t4, t5⟩ := hTi
      obtain ⟨g1, g2, g3⟩ := hg
      rw [← h2]
      show GoodSt rootP (readInstalledW rootP (writeInstalledW rootP
        (aupdate installed wi.newInstalled)
        { wi with fs := moveToRoot rootP wi.stagedFiles wi.fs, stagedFiles := [] }))
        (writeInstalledW rootP (aupdate installed wi.newInstalled)
        { wi with fs := moveToRoot rootP wi.stagedFiles wi.fs, stagedFiles := [] }).fs
      rw [readInstalled_write]
      rw [aupdate_disjoint installed wi.newInstalled t5]
      refine ⟨?_, ?_, ?_⟩
      · rw [show akeys (installed ++ wi.newInstalled) =
          akeys installed ++ akeys wi.newInstalled from by simp [akeys]]
        rw [List.nodup_append]
        refine ⟨g1, t4, ?_⟩
        intro x hx hx2
        exact (alookup_none_keys.mp (t5 x hx2)) hx
      · rw [PairDisj, List.pairwise_append]
        refine ⟨g2, pairDisj_of_flat_nodup (by rw [← t1]; exact t2), ?_⟩
        intro e he e' he' f hf hf'
        have h1 : (rootP ++ f) ∈ wr.fs.files := g3 e he f hf
        have h2m : f ∈ wi.stagedFiles := by
          rw [t1]
          exact mem_flatFiles he' hf'
        have h3 := (t3 f h2m).1
        rw [hFfs] at h3
        exact h3 h1
      · intro e he f hf
        apply writeInstalled_files_sub rootP (installed ++ wi.newInstalled)
          { wi with fs := moveToRoot rootP wi.stagedFiles wi.fs, stagedFiles := [] }
        show (rootP ++ f) ∈ (moveToRoot rootP wi.stagedFiles wi.fs).files
        rw [moveToRoot_files]
        rcases List.mem_append.mp he with he | he
        · refine List.mem_append.mpr (Or.inl ?_)
          rw [hFfs]
          exact g3 e he f hf
        · refine List.mem_append.mpr (Or.inr ?_)
          refine List.mem_map.mpr ⟨f, ?_, rfl⟩
          rw [t1]
          exact mem_flatFiles he hf

theorem cmdInstall_GoodW (env : Env) (mirror : String) (rootP : AbsPath)
    (packages : List String) (dist repo : String) (system : Bool) (fuel : Nat)
    (w w' : IWorld)
    (h : cmdInstallM env mirror rootP packages dist repo system fuel w = (.ok (), w'))
    (hg : GoodW rootP w) : GoodW rootP w' := by
  rw [cmdInstallM_run] at h
  have hgid : GoodSt rootP (readInstalledW rootP (idxLoadWorld env mirror dist repo rootP w))
      (idxLoadWorld env mirror dist repo rootP w).fs := by
    rw [readInstalled_idxLoad]
    obtain ⟨g1, g2, g3⟩ := hg
    exact ⟨g1, g2, filesOn_mono (idxLoad_files_sub env mirror dist repo rootP w) g3⟩
  cases system with
  | true =>
    simp only [if_true] at h
    obtain ⟨i', w2, hrun, hfs, hpres⟩ := sysLoopM_facts rootP packages
      (readInstalledW rootP (idxLoadWorld env mirror dist repo rootP w))
      (idxLoadWorld env mirror dist repo rootP w)
    unfold mBind at h
    rw [hrun] at h
    simp only [mMod] at h
    injection h with h1 h2
    rw [← h2]
    show GoodSt rootP (readInstalledW rootP (writeInstalledW rootP i' w2))
      (writeInstalledW rootP i' w2).fs
    rw [readInstalled_write]
    have hg2 : GoodSt rootP i' w2.fs := by
      apply hpres
      rw [hfs]
      exact hgid
    obtain ⟨g1, g2, g3⟩ := hg2
    exact ⟨g1, g2, filesOn_mono (writeInstalled_files_sub rootP i' w2) g3⟩
  | false =>
    simp only [Bool.false_eq_true, if_false] at h
    cases hres : resolveAll (effIndex env dist repo rootP w) packages with
    | error msg =>
      rw [hres] at h
      injection h with h1 h2
      rw [← h2]
      exact hgid
    | ok names =>
      rw [hres] at h
      refine txOk_GoodW env mirror (effIndex env dist repo rootP w)
        (readInstalledW rootP (idxLoadWorld env mirror dist repo rootP w))
        dist repo rootP fuel names _ w' h ?_ ?_
      · exact ⟨rfl, List.nodup_nil, fun f hf => absurd hf (List.not_mem_nil f),
          List.nodup_nil, fun k hk => absurd hk (List.not_mem_nil k)⟩
      · exact hgid

theorem removeLoop_GoodSt (rootP : AbsPath) (fuel : Nat) :
    ∀ (l : List Name) (inst : StateMap) (fs : Fs) (i' : StateMap) (f' : Fs),
      removeLoop rootP fuel l inst fs = .ok (i', f') →
      GoodSt rootP inst fs → GoodSt rootP i' f' := by
  intro l
  induction l with
  | nil =>
    intro inst fs i' f' h hg
    cases h
    exact hg
  | cons p t ih =>
    intro inst fs i' f' h hg
    rw [removeLoop] at h
    split at h
    · cases hr : removeM rootP fuel inst fs p false with
      | error e => rw [hr] at h; cases h
      | ok pr =>
        obtain ⟨i1, f1⟩ := pr
        rw [hr] at h
        exact ih i1 f1 i' f' h (removeM_GoodSt rootP fuel inst fs p false i1 f1 hr hg)
    · cases h

theorem cmdRemove_GoodW (rootP : AbsPath) (packages : List Name) (fuel : Nat)
    (w w' : IWorld)
    (h : cmdRemoveM rootP packages fuel w = (.ok (), w'))
    (hg : GoodW rootP w) : GoodW rootP w' := by
  rw [cmdRemoveM, mBind_mGet_run] at h
  cases hr : removeLoop rootP fuel packages (readInstalledW rootP w) w.fs with
  | error e =>
    rw [hr] at h
    cases h
  | ok pr =>
    obtain ⟨inst', fs'⟩ := pr
    rw [hr] at h
    simp only [mBind, mMod] at h
    injection h with h1 h2
    rw [← h2]
    show GoodSt rootP (readInstalledW rootP (writeInstalledW rootP inst'
        { w with fs := fs' }))
      (writeInstalledW rootP inst' { w with fs := fs' }).fs
    rw [readInstalled_write]
    have hg2 : GoodSt rootP inst' fs' :=
      removeLoop_GoodSt rootP fuel packages (readInstalledW rootP w) w.fs inst' fs' hr hg
    obtain ⟨g1, g2, g3⟩ := hg2
    refine ⟨g1, g2, filesOn_mono ?_ g3⟩
    intro u hu
    exact writeInstalled_files_sub rootP inst' { w with fs := fs' } u hu

/-- Worlds reachable from an empty persisted state by any sequence of
successful install and remove commands. -/
inductive Reach (rootP : AbsPath) : IWorld → Prop where
  | init (w : IWorld) : readInstalledW rootP w = [] → Reach rootP w
  | install (w w' : IWorld) (env : Env) (mirror : String) (packages : List String)
      (dist repo : String) (system : Bool) (fuel : Nat) :
      Reach rootP w →
      cmdInstallM env mirror rootP packages dist repo system fuel w = (.ok (), w') →
      Reach rootP w'
  | remove (w w' : IWorld) (packages : List Name) (fuel : Nat) :
      Reach rootP w →
      cmdRemoveM rootP packages fuel w = (.ok (), w') →
      Reach rootP w'

theorem reach_GoodW (rootP : AbsPath) (w : IWorld) (h : Reach rootP w) :
    GoodW rootP w := by
  induction h with
  | init w hw =>
    show GoodSt rootP (readInstalledW rootP w) w.fs
    rw [hw]
    exact ⟨List.nodup_nil, List.Pairwise.nil, fun e he => absurd he (List.not_mem_nil e)⟩
  | install w w' env mirror packages dist repo system fuel hr hcmd ih =>
    exact cmdInstall_GoodW env mirror rootP packages dist repo system fuel w w' hcmd ih
  | remove w w' packages fuel hr hcmd ih =>
    exact cmdRemove_GoodW rootP packages fuel w w' hcmd ih

/-- Executable check: any two entries of the state map with distinct names
have disjoint `files` lists. -/
def filesDisjoint (st : StateMap) : Bool :=
  st.all (fun e => st.all (fun e2 =>
    e.1 == e2.1 || e.2.files.all (fun f => !(e2.2.files.contains f))))

theorem filesDisjoint_of_GoodSt {rootP : AbsPath} {fs : Fs} {st : StateMap}
    (h : GoodSt rootP st fs) : filesDisjoint st = true := by
  obtain ⟨g1, g2, g3⟩ := h
  rw [filesDisjoint, List.all_eq_true]
  intro e he
  rw [List.all_eq_true]
  intro e2 he2
  by_cases hk : e.1 = e2.1
  · rw [Bool.or_eq_true]
    left
    exact beq_iff_eq.mpr hk
  · rw [Bool.or_eq_true]
    right
    rw [List.all_eq_true]
    intro f hf
    have hne : e ≠ e2 := fun hc => hk (congrArg Prod.fst hc)
    have hdisj : e.2.files.Disjoint e2.2.files :=
      g2.forall (fun a b hab => List.Disjoint.symm hab) he he2 hne
    rw [Bool.not_eq_true', Bool.eq_false_iff]
    intro hc
    exact hdisj hf (containsB_iff.mp hc)

/-- C2: file-ownership disjointness invariant.  In every world reachable
from an empty persisted state by successful install and remove commands,
the persisted `InstallationState` maps distinct packages to pairwise
disjoint `files` lists; the install-time conflict check (rejecting a
relative path that already exists under the install root or is already in
the transaction's staging area) preserves the invariant through installs,
and removal only deletes entries and their files. -/
theorem claim_C2_files_disjoint (rootP : AbsPath) (w : IWorld) (h : Reach rootP w) :
    PairDisj (readInstalledW rootP w) ∧
    filesDisjoint (readInstalledW rootP w) = true := by
  have hg := reach_GoodW rootP w h
  exact ⟨hg.2.1, filesDisjoint_of_GoodSt hg⟩

def envC2 : Env :=
  { feed := [("a", { filename := some "a.deb" }), ("b", { filename := some "b.deb" })],
    archive := fun fn =>
      if fn = "a.deb" then some [["bin", "fa"]]
      else if fn = "b.deb" then some [["bin", "fb"]] else none }

/-- The world after installing `a` and `b` from scratch. -/
def wC2fin : IWorld :=
  (cmdInstallM envC2 "m" ["r"] ["a", "b"] "eoan" "main" false 1 wEmpty).2

theorem claim_C2_witness :
    PairDisj (readInstalledW ["r"] wC2fin) ∧
    filesDisjoint (readInstalledW ["r"] wC2fin) = true :=
  claim_C2_files_disjoint ["r"] wC2fin
    (Reach.install wEmpty wC2fin envC2 "m" ["a", "b"] "eoan" "main" false 1
      (Reach.init wEmpty rfl)
      rfl)
